import Mathlib

/-! # Provisioning of the Authorization Extension (`src/index.js`)

A shallow embedding of the class `Authz`: the declarative model handed to
`provision`, the entities the store returns as decoded JSON, the in-memory
snapshots the methods mutate, and the write requests sent to the store.

Promises are modelled by their settled outcome: a step takes the current
`Run` (store state, the three snapshots, the log of write requests) and
returns `Except Err value` together with the `Run` it leaves behind.  A
rejection keeps the `Run` reached so far, since nothing is rolled back.
-/

namespace Authz

/-! ## Data model -/

/-- Reasons for a promise to reject: a `TypeError` thrown by a property read
on `undefined`, or a failure reported by the store. -/
inductive Err where
  | typeError
  | storeFailure (message : String)
  deriving DecidableEq, Repr

/-- Values a method resolves with: `undefined`, `true`, or the declared item. -/
inductive JsRet (α : Type) where
  | undefined
  | jsTrue
  | value (declared : α)
  deriving DecidableEq, Repr

/-- A role of the declarative model; `permissions` may be missing. -/
structure DeclRole where
  name : String
  description : Option String
  permissions : Option (List String)
  deriving DecidableEq, Repr

/-- An application of the declarative model. -/
structure Application where
  id : String
  permissions : List String
  roles : List DeclRole
  deriving DecidableEq, Repr

/-- A nested-group reference of the declarative model. -/
structure NestedRef where
  name : String
  description : Option String
  deriving DecidableEq, Repr

/-- A group of the declarative model; `nested` may be missing. -/
structure DeclGroup where
  name : String
  description : Option String
  nested : Option (List NestedRef)
  deriving DecidableEq, Repr

/-- The argument `data` of `provision`. -/
structure Data where
  applications : List Application
  groups : List DeclGroup
  deriving DecidableEq, Repr

/-- A permission as decoded from the store; a key that is absent is `none`. -/
structure Permission where
  _id : Option String
  name : Option String
  description : Option String
  applicationType : Option String
  applicationId : Option String
  deriving DecidableEq, Repr

/-- A role as decoded from the store; a key that is absent is `none`. -/
structure Role where
  _id : Option String
  name : Option String
  description : Option String
  applicationType : Option String
  applicationId : Option String
  permissions : Option (List (Option String))
  deriving DecidableEq, Repr

/-- A group as decoded from the store; a key that is absent is `none`. -/
structure Group where
  _id : Option String
  name : Option String
  description : Option String
  deriving DecidableEq, Repr

/-- Body of `POST /permissions`. -/
structure PermissionPayload where
  name : String
  description : String
  applicationType : String
  applicationId : String
  deriving DecidableEq, Repr

/-- Body of `POST /roles`. -/
structure RolePayload where
  name : String
  description : Option String
  applicationType : String
  applicationId : String
  deriving DecidableEq, Repr

/-- Body of `POST /groups`. -/
structure GroupPayload where
  name : String
  description : Option String
  deriving DecidableEq, Repr

/-- A write request sent to the store.  A `POST` carries the entity the store
answered with (`none` when the request failed); `PUT /roles/<id>` and
`PATCH /groups/<id>/nested` carry the identifier put in the path, which is
`none` when the code read `undefined`. -/
inductive Call where
  | postPermission (payload : PermissionPayload) (reply : Option Permission)
  | postRole (payload : RolePayload) (reply : Option Role)
  | putRole (roleId : Option String) (body : Role)
  | postGroup (payload : GroupPayload) (reply : Option Group)
  | patchNested (groupId : Option String) (nestedIds : List (Option String))
  deriving DecidableEq, Repr

/-- The remote store as a state machine over `σ`; every behaviour of a store
is a choice of these eight functions. -/
structure Store (σ : Type) where
  getPermissions : σ → Except Err (List Permission)
  getRoles : σ → Except Err (List Role)
  getGroups : σ → Except Err (List Group)
  postPermission : PermissionPayload → σ → Except Err Permission × σ
  postRole : RolePayload → σ → Except Err Role × σ
  putRole : Option String → Role → σ → Except Err Unit × σ
  postGroup : GroupPayload → σ → Except Err Group × σ
  patchNested : Option String → List (Option String) → σ → Except Err Unit × σ

/-- What one run of `provision` holds: the store, the three snapshots
(`existingPermissions`, `existingRoles`, `existingGroups`) and the write
requests issued so far, oldest first. -/
structure Run (σ : Type) where
  store : σ
  existingPermissions : List Permission
  existingRoles : List Role
  existingGroups : List Group
  calls : List Call

/-- A promise-returning step: its settled outcome and the `Run` it leaves. -/
abbrev Step (σ : Type) (β : Type) := Run σ → Except Err β × Run σ

/-! ## lodash `_.find` with an object predicate -/

/-- Property test of `_.matches` for a primitive source value: the entity's
value must be strictly equal to it.  A source value `undefined` (`none`)
asks for a key that is present and holds `undefined`, which no decoded JSON
entity has, so it matches nothing. -/
def matchesProp (srcValue : Option String) (objValue : Option String) : Bool :=
  match srcValue with
  | none => false
  | some v => objValue == some v

/-- Predicate `{ applicationId: application.id, name: permission }`. -/
def permissionMatches (applicationId name : String) (p : Permission) : Bool :=
  matchesProp (some applicationId) p.applicationId && matchesProp (some name) p.name

/-- Predicate `{ applicationId: application.id, name: role.name }`. -/
def roleMatches (applicationId name : String) (r : Role) : Bool :=
  matchesProp (some applicationId) r.applicationId && matchesProp (some name) r.name

/-- Predicate `{ name: group.name }`. -/
def groupMatches (name : String) (g : Group) : Bool :=
  matchesProp (some name) g.name

/-- Predicate `{ name: nestedGroupName.name, description: nestedGroupName.description }`. -/
def nestedMatches (ref : NestedRef) (g : Group) : Bool :=
  matchesProp (some ref.name) g.name && matchesProp ref.description g.description

/-! ## Description of a created permission -/

/-- Characters matched by `\w`. -/
def isWordChar (c : Char) : Bool :=
  c.isAlphanum || c == '_'

/-- The replacement of every match of `/(\w)(\w*)/g` by
`g1.toUpperCase() + g2.toLowerCase()`; `inWord` tells whether the previous
character belonged to the current match. -/
def titleCase : Bool → List Char → List Char
  | _, [] => []
  | inWord, c :: cs =>
    if isWordChar c then
      (if inWord then c.toLower else c.toUpper) :: titleCase true cs
    else
      c :: titleCase false cs

/-- The method `String.prototype.replace` with a one-character string
pattern: only the first occurrence is replaced. -/
def replaceFirst (pattern replacement : Char) : List Char → List Char
  | [] => []
  | c :: cs =>
    if c = pattern then replacement :: cs
    else c :: replaceFirst pattern replacement cs

/-- The `description` expression of `createPermission`. -/
def describePermission (permission : String) : String :=
  String.mk (replaceFirst '-' ' ' (replaceFirst ':' ' ' (titleCase false permission.data)))

/-- The `payload` of `createPermission`. -/
def permissionPayload (application : Application) (permission : String) : PermissionPayload :=
  { name := permission
    description := describePermission permission
    applicationType := "client"
    applicationId := application.id }

/-- The `payload` of `createRole`. -/
def rolePayload (application : Application) (role : DeclRole) : RolePayload :=
  { name := role.name
    description := role.description
    applicationType := "client"
    applicationId := application.id }

/-- The `payload` of `createGroup`. -/
def groupPayload (group : DeclGroup) : GroupPayload :=
  { name := group.name
    description := group.description }

/-! ## Promise combinators -/

/-- Chaining with `.then`: the continuation runs only when the first step
fulfils; a rejection is passed on. -/
def andThen {σ β γ : Type} (first : Step σ β) (next : β → Step σ γ) : Step σ γ :=
  fun r =>
    match first r with
    | (.error e, r1) => (.error e, r1)
    | (.ok v, r1) => next v r1

/-- Bluebird `Promise.mapSeries`: the mapper runs on one item after the
other, each waiting for the previous promise; the first rejection stops the
iteration. -/
def mapSeries {σ α β : Type} (mapper : α → Step σ β) : List α → Step σ (List β)
  | [], r => (.ok [], r)
  | x :: xs, r =>
    match mapper x r with
    | (.error e, r1) => (.error e, r1)
    | (.ok v, r1) =>
      match mapSeries mapper xs r1 with
      | (.error e, r2) => (.error e, r2)
      | (.ok vs, r2) => (.ok (v :: vs), r2)

/-! ## The methods of `Authz` -/

/-- Method `createPermission(existingPermissions, application, permission)`. -/
def createPermission {σ : Type} (S : Store σ) (application : Application)
    (permission : String) : Step σ (JsRet String) :=
  fun r =>
    match r.existingPermissions.find? (permissionMatches application.id permission) with
    | some _ => (.ok .jsTrue, r)
    | none =>
      let payload := permissionPayload application permission
      match S.postPermission payload r.store with
      | (.error e, st) =>
        (.error e, { r with store := st, calls := r.calls ++ [.postPermission payload none] })
      | (.ok createdPermission, st) =>
        (.ok (.value permission),
          { r with
            store := st
            existingPermissions := r.existingPermissions ++ [createdPermission]
            calls := r.calls ++ [.postPermission payload (some createdPermission)] })

/-- Method `createRole(existingRoles, application, role)`. -/
def createRole {σ : Type} (S : Store σ) (application : Application)
    (role : DeclRole) : Step σ (JsRet DeclRole) :=
  fun r =>
    match r.existingRoles.find? (roleMatches application.id role.name) with
    | some _ => (.ok .jsTrue, r)
    | none =>
      let payload := rolePayload application role
      match S.postRole payload r.store with
      | (.error e, st) =>
        (.error e, { r with store := st, calls := r.calls ++ [.postRole payload none] })
      | (.ok createdRole, st) =>
        (.ok (.value role),
          { r with
            store := st
            existingRoles := r.existingRoles ++ [createdRole]
            calls := r.calls ++ [.postRole payload (some createdRole)] })

/-- An in-place mutation of the object `_.find` returned: the first element
satisfying the predicate is changed, the list keeps its order. -/
def modifyFirst {α : Type} (p : α → Bool) (f : α → α) : List α → List α
  | [] => []
  | x :: xs => if p x then f x :: xs else x :: modifyFirst p f xs

/-- The `role.permissions.map(...)` of `addRolePermissions`: each name is
looked up under the application's id and its `_id` read; a name that is not
found makes the read throw (`none`). -/
def resolvePermissionIds (existingPermissions : List Permission) (applicationId : String) :
    List String → Option (List (Option String))
  | [] => some []
  | permissionName :: rest =>
    match existingPermissions.find? (permissionMatches applicationId permissionName) with
    | none => none
    | some permission =>
      match resolvePermissionIds existingPermissions applicationId rest with
      | none => none
      | some ids => some (permission._id :: ids)

/-- Method `addRolePermissions(existingRoles, existingPermissions, application, role)`. -/
def addRolePermissions {σ : Type} (S : Store σ) (application : Application)
    (role : DeclRole) : Step σ (JsRet Unit) :=
  fun r =>
    match role.permissions with
    | none => (.ok .undefined, r)
    | some permissionNames =>
      if permissionNames.length = 0 then (.ok .undefined, r)
      else
        match r.existingRoles.find? (roleMatches application.id role.name) with
        | none => (.error .typeError, r)
        | some existingRole =>
          let existingRoleId := existingRole._id
          let isRole := roleMatches application.id role.name
          let r1 := { r with
            existingRoles := modifyFirst isRole (fun e => { e with _id := none }) r.existingRoles }
          match resolvePermissionIds r.existingPermissions application.id permissionNames with
          | none => (.error .typeError, r1)
          | some ids =>
            let body : Role := { existingRole with _id := none, permissions := some ids }
            let r2 := { r1 with
              existingRoles :=
                modifyFirst isRole (fun e => { e with permissions := some ids }) r1.existingRoles }
            match S.putRole existingRoleId body r2.store with
            | (.error e, st) =>
              (.error e, { r2 with store := st, calls := r2.calls ++ [.putRole existingRoleId body] })
            | (.ok _, st) =>
              (.ok .jsTrue, { r2 with store := st, calls := r2.calls ++ [.putRole existingRoleId body] })

/-- Method `createGroup(existingGroups, group)`. -/
def createGroup {σ : Type} (S : Store σ) (group : DeclGroup) : Step σ (JsRet DeclGroup) :=
  fun r =>
    match r.existingGroups.find? (groupMatches group.name) with
    | some _ => (.ok .jsTrue, r)
    | none =>
      let payload := groupPayload group
      match S.postGroup payload r.store with
      | (.error e, st) =>
        (.error e, { r with store := st, calls := r.calls ++ [.postGroup payload none] })
      | (.ok createdGroup, st) =>
        (.ok (.value group),
          { r with
            store := st
            existingGroups := r.existingGroups ++ [createdGroup]
            calls := r.calls ++ [.postGroup payload (some createdGroup)] })

/-- The `group.nested.map(...)` of `createNestedGroups`: each reference is
looked up by name and description and its `_id` read; a reference that is
not found makes the read throw (`none`). -/
def resolveNestedIds (existingGroups : List Group) :
    List NestedRef → Option (List (Option String))
  | [] => some []
  | nestedGroupName :: rest =>
    match existingGroups.find? (nestedMatches nestedGroupName) with
    | none => none
    | some nestedGroup =>
      match resolveNestedIds existingGroups rest with
      | none => none
      | some ids => some (nestedGroup._id :: ids)

/-- Method `createNestedGroups(existingGroups, group)`. -/
def createNestedGroups {σ : Type} (S : Store σ) (group : DeclGroup) : Step σ (JsRet Unit) :=
  fun r =>
    match group.nested with
    | none => (.ok .undefined, r)
    | some nested =>
      if nested.length = 0 then (.ok .undefined, r)
      else
        let existingGroup := r.existingGroups.find? (groupMatches group.name)
        match resolveNestedIds r.existingGroups nested with
        | none => (.error .typeError, r)
        | some payload =>
          match existingGroup with
          | none => (.error .typeError, r)
          | some owner =>
            match S.patchNested owner._id payload r.store with
            | (.error e, st) =>
              (.error e, { r with store := st, calls := r.calls ++ [.patchNested owner._id payload] })
            | (.ok _, st) =>
              (.ok .jsTrue, { r with store := st, calls := r.calls ++ [.patchNested owner._id payload] })

/-! ## `provision` -/

/-- First pass of `provision`: the permissions of every application. -/
def permissionPass {σ : Type} (S : Store σ) (data : Data) : Step σ (List (List (JsRet String))) :=
  mapSeries (fun application =>
    mapSeries (fun permission => createPermission S application permission)
      application.permissions) data.applications

/-- Second pass of `provision`: the roles of every application, each followed
by its permissions. -/
def rolePass {σ : Type} (S : Store σ) (data : Data) : Step σ (List (List (JsRet Unit))) :=
  mapSeries (fun application =>
    mapSeries (fun role =>
      andThen (createRole S application role) (fun _ => addRolePermissions S application role))
      application.roles) data.applications

/-- Third pass of `provision`: the groups, each followed by its nested groups. -/
def groupPass {σ : Type} (S : Store σ) (data : Data) : Step σ (List (JsRet Unit)) :=
  mapSeries (fun group =>
    andThen (createGroup S group) (fun _ => createNestedGroups S group)) data.groups

/-- The promise chain built inside the `.then` callback of `provision`. -/
def provisionChain {σ : Type} (S : Store σ) (data : Data) : Step σ (List (JsRet Unit)) :=
  andThen (permissionPass S data) (fun _ =>
    andThen (rolePass S data) (fun _ => groupPass S data))

/-- What a call of `provision` amounts to: `returned` is the settlement of
the promise handed to the caller, `chain` the settlement of the promise
chain started in the callback (`none` when it was never started), `store`
and `calls` the store state and the write requests once everything has
settled. -/
structure Provisioned (σ : Type) where
  returned : Except Err (JsRet Unit)
  chain : Option (Except Err Unit)
  store : σ
  calls : List Call

/-- Method `provision(data)`.  `Promise.all` of the three reads rejects when
one of them does.  The callback of `.then` is a block that starts the chain
of the three passes but has no `return`, so the promise handed to the caller
fulfils with `undefined` as soon as the reads have, whatever the chain does. -/
def provision {σ : Type} (S : Store σ) (data : Data) (st : σ) : Provisioned σ :=
  match S.getPermissions st, S.getRoles st, S.getGroups st with
  | .error e, _, _ => { returned := .error e, chain := none, store := st, calls := [] }
  | .ok _, .error e, _ => { returned := .error e, chain := none, store := st, calls := [] }
  | .ok _, .ok _, .error e => { returned := .error e, chain := none, store := st, calls := [] }
  | .ok existingPermissions, .ok existingRoles, .ok existingGroups =>
    let settled := provisionChain S data
      { store := st
        existingPermissions := existingPermissions
        existingRoles := existingRoles
        existingGroups := existingGroups
        calls := [] }
    { returned := .ok .undefined
      chain := some (settled.1.map (fun _ => ()))
      store := settled.2.store
      calls := settled.2.calls }

/-! ## A store that keeps what it is sent -/

/-- State of the in-memory store: what the three lists hold and the counter
the next identifier is taken from. -/
structure Mem where
  permissions : List Permission
  roles : List Role
  groups : List Group
  nextId : Nat
  deriving DecidableEq, Repr

/-- Identifier number `n` of the in-memory store. -/
def freshId (n : Nat) : String :=
  String.mk (List.replicate (n + 1) 'i')

/-- A store whose create calls answer with the payload sent plus a new
identifier, whose list calls return what was there at the start followed by
everything created since, and whose attach calls are accepted: `PUT` records
the permission list on the role of that identifier. -/
def memStore : Store Mem where
  getPermissions m := .ok m.permissions
  getRoles m := .ok m.roles
  getGroups m := .ok m.groups
  postPermission p m :=
    let created : Permission :=
      { _id := some (freshId m.nextId), name := some p.name, description := some p.description
        applicationType := some p.applicationType, applicationId := some p.applicationId }
    (.ok created, { m with permissions := m.permissions ++ [created], nextId := m.nextId + 1 })
  postRole p m :=
    let created : Role :=
      { _id := some (freshId m.nextId), name := some p.name, description := p.description
        applicationType := some p.applicationType, applicationId := some p.applicationId
        permissions := none }
    (.ok created, { m with roles := m.roles ++ [created], nextId := m.nextId + 1 })
  putRole roleId body m :=
    (.ok (), { m with
      roles := m.roles.map (fun e =>
        if e._id = roleId then { e with permissions := body.permissions } else e) })
  postGroup p m :=
    let created : Group :=
      { _id := some (freshId m.nextId), name := some p.name, description := p.description }
    (.ok created, { m with groups := m.groups ++ [created], nextId := m.nextId + 1 })
  patchNested _ _ m := (.ok (), m)

/-- The in-memory store with nothing in it. -/
def emptyMem : Mem :=
  { permissions := [], roles := [], groups := [], nextId := 0 }

/-! ## Concrete models and stores -/

/-- A `Run` over the in-memory store with the given snapshots and no request
issued yet. -/
def runOf (m : Mem) (existingPermissions : List Permission) (existingRoles : List Role)
    (existingGroups : List Group) : Run Mem :=
  { store := m
    existingPermissions := existingPermissions
    existingRoles := existingRoles
    existingGroups := existingGroups
    calls := [] }

/-- The application `app1` with nothing declared under it. -/
def app1 : Application :=
  { id := "app1", permissions := [], roles := [] }

/-- The permission `read:users` of `app1` as the store holds it. -/
def readUsers : Permission :=
  { _id := some "p1", name := some "read:users", description := some "Read Users"
    applicationType := some "client", applicationId := some "app1" }

/-- The model of the full scenario: `app1` with two permissions and the role
`admin`, and the group `admins` without nesting. -/
def scenario : Data :=
  { applications :=
      [{ id := "app1"
         permissions := ["read:users", "write:users"]
         roles := [{ name := "admin", description := some "Administrators"
                     permissions := some ["read:users"] }] }]
    groups := [{ name := "admins", description := some "Admins", nested := none }] }

/-- The role `admin` of `app1` as the store holds it. -/
def adminRole : Role :=
  { _id := some "r1", name := some "admin", description := some "Administrators"
    applicationType := some "client", applicationId := some "app1", permissions := none }

/-- The permission `delete:nothing`, held by the store under another
application. -/
def deleteNothingElsewhere : Permission :=
  { _id := some "p9", name := some "delete:nothing", description := some "Delete Nothing"
    applicationType := some "client", applicationId := some "app2" }

/-- A declaration of `admin` that asks for `delete:nothing`. -/
def adminDeletingNothing : DeclRole :=
  { name := "admin", description := some "Administrators"
    permissions := some ["read:users", "delete:nothing"] }

/-- A store that lists nothing and turns every write down. -/
def rejectingStore : Store Unit where
  getPermissions _ := .ok []
  getRoles _ := .ok []
  getGroups _ := .ok []
  postPermission _ st := (.error (.storeFailure "conflict"), st)
  postRole _ st := (.error (.storeFailure "conflict"), st)
  putRole _ _ st := (.error (.storeFailure "conflict"), st)
  postGroup _ st := (.error (.storeFailure "conflict"), st)
  patchNested _ _ st := (.error (.storeFailure "conflict"), st)

/-- A model that declares the role `admin` of `app1` twice. -/
def adminDeclaredTwice : Data :=
  { applications :=
      [{ id := "app1"
         permissions := ["read:users"]
         roles := [{ name := "admin", description := none, permissions := some ["read:users"] },
                   { name := "admin", description := none, permissions := some ["read:users"] }] }]
    groups := [] }

/-- The group `admins` as the store holds it. -/
def adminsGroup : Group :=
  { _id := some "g1", name := some "admins", description := some "Administrators" }

/-- The group `devs` as the store holds it. -/
def devsGroup : Group :=
  { _id := some "g2", name := some "devs", description := some "Developers" }

/-- A declaration of `admins` nesting `devs`, the reference giving no
description. -/
def adminsNestingDevs : DeclGroup :=
  { name := "admins", description := some "Administrators"
    nested := some [{ name := "devs", description := none }] }

/-- A declaration of `admins` nesting `devs`, the reference giving the
description the store holds. -/
def adminsNestingDevelopers : DeclGroup :=
  { name := "admins", description := some "Administrators"
    nested := some [{ name := "devs", description := some "Developers" }] }

/-- Resolution of a nested reference as the specification words it: the
first group of that name, the description compared only when the reference
gives one. -/
def nestedMatchesAsSpecified (ref : NestedRef) (g : Group) : Bool :=
  matchesProp (some ref.name) g.name &&
    (match ref.description with
     | none => true
     | some d => g.description == some d)

/-- The element `x` is the first of `l` to satisfy `P`. -/
def IsFirst {α : Type} (P : α → Prop) (l : List α) (x : α) : Prop :=
  ∃ before after, l = before ++ x :: after ∧ P x ∧ ∀ y ∈ before, ¬ P y

/-- A model whose group `admins` nests the group `devs` declared before it. -/
def nestingModel : Data :=
  { applications := []
    groups :=
      [{ name := "devs", description := some "Developers", nested := none },
       { name := "admins", description := some "Administrators"
         nested := some [{ name := "devs", description := some "Developers" }] }] }

/-- Requests of the permission pass. -/
def Call.isPermissionCall : Call → Bool
  | .postPermission _ _ => true
  | _ => false

/-- Requests of the role pass: creation of a role and the `PUT` of its
permissions. -/
def Call.isRoleCall : Call → Bool
  | .postRole _ _ => true
  | .putRole _ _ => true
  | _ => false

/-- Requests of the group pass: creation of a group and the `PATCH` of its
nested groups. -/
def Call.isGroupCall : Call → Bool
  | .postGroup _ _ => true
  | .patchNested _ _ => true
  | _ => false

/-- Creation requests. -/
def Call.isCreate : Call → Bool
  | .postPermission _ _ => true
  | .postRole _ _ => true
  | .postGroup _ _ => true
  | _ => false

/-- From `r` to `r'` the request log only grew, by requests of one kind. -/
def Appends {σ : Type} (kind : Call → Bool) (r r' : Run σ) : Prop :=
  ∃ added, r'.calls = r.calls ++ added ∧ ∀ c ∈ added, kind c = true

/-- Every identifier a nesting request of the log carries is the `_id` of a
group that was in `initialGroups` or that an earlier request of the log
created. -/
def NestingJustified (initialGroups : List Group) (calls : List Call) : Prop :=
  ∀ earlier groupId nestedIds later,
    calls = earlier ++ Call.patchNested groupId nestedIds :: later →
    ∀ i ∈ nestedIds, ∃ g, g._id = i ∧
      (g ∈ initialGroups ∨ ∃ payload, Call.postGroup payload (some g) ∈ earlier)

/-- Every group of the snapshot was in `initialGroups` or was created by a
request of the log, and the nesting requests of the log are justified. -/
def GroupsAccounted {σ : Type} (initialGroups : List Group) (r : Run σ) : Prop :=
  (∀ g ∈ r.existingGroups,
    g ∈ initialGroups ∨ ∃ payload, Call.postGroup payload (some g) ∈ r.calls) ∧
  NestingJustified initialGroups r.calls

/-- What `GET /permissions` lists in state `st` (nothing when it fails). -/
def permissionsOf {σ : Type} (S : Store σ) (st : σ) : List Permission :=
  match S.getPermissions st with
  | .ok listed => listed
  | .error _ => []

/-- What `GET /roles` lists in state `st` (nothing when it fails). -/
def rolesOf {σ : Type} (S : Store σ) (st : σ) : List Role :=
  match S.getRoles st with
  | .ok listed => listed
  | .error _ => []

/-- What `GET /groups` lists in state `st` (nothing when it fails). -/
def groupsOf {σ : Type} (S : Store σ) (st : σ) : List Group :=
  match S.getGroups st with
  | .ok listed => listed
  | .error _ => []

/-- Identity of a role: application id and name. -/
def roleKey (e : Role) : Option String × Option String :=
  (e.applicationId, e.name)

/-- A store whose list calls succeed, whose create calls answer with an
entity carrying the name (and application id) of the payload and list it
after everything listed before, and whose attach calls are accepted; no
call removes or renames what is listed.  Roles are compared by identity,
since an attach may change the permission list a role is listed with. -/
structure Reliable {σ : Type} (S : Store σ) : Prop where
  lists : ∀ st, S.getPermissions st = .ok (permissionsOf S st) ∧
    S.getRoles st = .ok (rolesOf S st) ∧ S.getGroups st = .ok (groupsOf S st)
  postPermission : ∀ payload st, ∃ created st',
    S.postPermission payload st = (.ok created, st') ∧
    created.name = some payload.name ∧ created.applicationId = some payload.applicationId ∧
    permissionsOf S st' = permissionsOf S st ++ [created] ∧
    (rolesOf S st').map roleKey = (rolesOf S st).map roleKey ∧
    groupsOf S st' = groupsOf S st
  postRole : ∀ payload st, ∃ created st',
    S.postRole payload st = (.ok created, st') ∧
    created.name = some payload.name ∧ created.applicationId = some payload.applicationId ∧
    permissionsOf S st' = permissionsOf S st ∧
    (rolesOf S st').map roleKey = (rolesOf S st).map roleKey ++ [roleKey created] ∧
    groupsOf S st' = groupsOf S st
  putRole : ∀ roleId body st, ∃ st',
    S.putRole roleId body st = (.ok (), st') ∧
    permissionsOf S st' = permissionsOf S st ∧
    (rolesOf S st').map roleKey = (rolesOf S st).map roleKey ∧
    groupsOf S st' = groupsOf S st
  postGroup : ∀ payload st, ∃ created st',
    S.postGroup payload st = (.ok created, st') ∧
    created.name = some payload.name ∧
    permissionsOf S st' = permissionsOf S st ∧
    (rolesOf S st').map roleKey = (rolesOf S st).map roleKey ∧
    groupsOf S st' = groupsOf S st ++ [created]
  patchNested : ∀ groupId nestedIds st, ∃ st',
    S.patchNested groupId nestedIds st = (.ok (), st') ∧
    permissionsOf S st' = permissionsOf S st ∧
    (rolesOf S st').map roleKey = (rolesOf S st).map roleKey ∧
    groupsOf S st' = groupsOf S st

/-- The snapshots of the run are what the store lists: permissions and
groups as they are, roles up to identity. -/
def Sync {σ : Type} (S : Store σ) (r : Run σ) : Prop :=
  r.existingPermissions = permissionsOf S r.store ∧
  r.existingRoles.map roleKey = (rolesOf S r.store).map roleKey ∧
  r.existingGroups = groupsOf S r.store

/-- From `r` to `r'` the snapshots only grew at the end; roles are compared
by identity. -/
def Extends {σ : Type} (r r' : Run σ) : Prop :=
  (∃ more, r'.existingPermissions = r.existingPermissions ++ more) ∧
  (∃ more, r'.existingRoles.map roleKey = r.existingRoles.map roleKey ++ more) ∧
  (∃ more, r'.existingGroups = r.existingGroups ++ more)

/-- The permission lists of the role `PUT`s of a log, oldest first. -/
def rolePermissionLists (calls : List Call) : List (Option (List (Option String))) :=
  calls.filterMap (fun c =>
    match c with
    | .putRole _ body => some body.permissions
    | _ => none)

/-- The owner identifier and identifier list of the nesting requests of a
log, oldest first. -/
def nestingLists (calls : List Call) : List (Option String × List (Option String)) :=
  calls.filterMap (fun c =>
    match c with
    | .patchNested groupId nestedIds => some (groupId, nestedIds)
    | _ => none)

/-- The permission list the attach of a declared role sends when its names
are resolved against `existingPermissions`; none for a role that lists no
permission. -/
def expectedRoleAttach (application : Application) (role : DeclRole)
    (existingPermissions : List Permission) : List (Option (List (Option String))) :=
  match role.permissions with
  | none => []
  | some permissionNames =>
    if permissionNames.length = 0 then []
    else [resolvePermissionIds existingPermissions application.id permissionNames]

/-- The nesting request of a declared group when owner and references are
resolved against `existingGroups`; none for a group that nests nothing. -/
def expectedNesting (group : DeclGroup) (existingGroups : List Group) :
    List (Option String × List (Option String)) :=
  match group.nested with
  | none => []
  | some nested =>
    if nested.length = 0 then []
    else
      match existingGroups.find? (groupMatches group.name),
        resolveNestedIds existingGroups nested with
      | some owner, some ids => [(owner._id, ids)]
      | _, _ => []

/-- The permission lists of all role attaches of a model, in declared order,
resolved against `existingPermissions`. -/
def expectedRoleAttaches (data : Data) (existingPermissions : List Permission) :
    List (Option (List (Option String))) :=
  (data.applications.map (fun application =>
    (application.roles.map (fun role =>
      expectedRoleAttach application role existingPermissions)).flatten)).flatten

/-- The nesting requests of a model, in declared order, resolved against
`existingGroups`. -/
def expectedNestings (data : Data) (existingGroups : List Group) :
    List (Option String × List (Option String)) :=
  (data.groups.map (fun group => expectedNesting group existingGroups)).flatten

/-- From `r` to `r'` the permission snapshot stayed as it was. -/
def SamePermissions {σ : Type} (r r' : Run σ) : Prop :=
  r'.existingPermissions = r.existingPermissions

/-- The declared permission is in the permission snapshot of `r`. -/
def PermissionReady {σ : Type} (application : Application) (permission : String)
    (r : Run σ) : Prop :=
  ∃ x, r.existingPermissions.find? (permissionMatches application.id permission) = some x

/-- The declared role is in the role snapshot of `r` and the permission names
it lists, if any, all resolve in the permission snapshot of `r`. -/
def RoleReady {σ : Type} (application : Application) (role : DeclRole) (r : Run σ) : Prop :=
  (some application.id, some role.name) ∈ r.existingRoles.map roleKey ∧
  ∀ names, role.permissions = some names → names.length ≠ 0 →
    ∃ ids, resolvePermissionIds r.existingPermissions application.id names = some ids

/-- The declared group is in the group snapshot of `r` and the references it
nests, if any, all resolve in the group snapshot of `r`. -/
def GroupReady {σ : Type} (group : DeclGroup) (r : Run σ) : Prop :=
  (∃ x, r.existingGroups.find? (groupMatches group.name) = some x) ∧
  ∀ nested, group.nested = some nested → nested.length ≠ 0 →
    ∃ ids, resolveNestedIds r.existingGroups nested = some ids

/-- Everything the model declares is in the snapshots of `r` and every
reference of the model resolves there. -/
def Satisfies {σ : Type} (data : Data) (r : Run σ) : Prop :=
  (∀ application ∈ data.applications, ∀ permission ∈ application.permissions,
    PermissionReady application permission r) ∧
  (∀ application ∈ data.applications, ∀ role ∈ application.roles,
    RoleReady application role r) ∧
  (∀ group ∈ data.groups, GroupReady group r)

/-- The run `r` has the snapshots of `target` (roles up to identity) and has
sent no creation request. -/
def Quiet {σ : Type} (target : Run σ) (r : Run σ) : Prop :=
  r.existingPermissions = target.existingPermissions ∧
  r.existingRoles.map roleKey = target.existingRoles.map roleKey ∧
  r.existingGroups = target.existingGroups ∧
  ∀ c ∈ r.calls, c.isCreate = false

/-- The run `provision` starts its chain from in store state `st`: the
snapshots are what the three reads list, no request is sent yet. -/
def initialRun {σ : Type} (S : Store σ) (st : σ) : Run σ :=
  { store := st
    existingPermissions := permissionsOf S st
    existingRoles := rolesOf S st
    existingGroups := groupsOf S st
    calls := [] }

/-! ## Properties -/

theorem matchesProp_some (v : String) (o : Option String) :
    matchesProp (some v) o = true ↔ o = some v := by
  simp [matchesProp]

theorem permissionMatches_iff (a n : String) (p : Permission) :
    permissionMatches a n p = true ↔ p.applicationId = some a ∧ p.name = some n := by
  simp [permissionMatches, matchesProp_some]

theorem roleMatches_iff (a n : String) (e : Role) :
    roleMatches a n e = true ↔ e.applicationId = some a ∧ e.name = some n := by
  simp [roleMatches, matchesProp_some]

theorem groupMatches_iff (n : String) (g : Group) :
    groupMatches n g = true ↔ g.name = some n := by
  simp [groupMatches, matchesProp_some]

/-- Searching finds something exactly when some element passes the test. -/
theorem find_isSome_iff {α : Type} (p : α → Bool) (l : List α) :
    (∃ x, l.find? p = some x) ↔ ∃ x ∈ l, p x = true := by
  constructor
  · rintro ⟨x, hx⟩
    exact ⟨x, List.mem_of_find?_eq_some hx, List.find?_some hx⟩
  · rintro ⟨x, hx, hp⟩
    cases h : l.find? p with
    | some y => exact ⟨y, rfl⟩
    | none => exact absurd hp (by simpa using (List.find?_eq_none.mp h) x hx)

theorem find_eq_none_iff {α : Type} (p : α → Bool) (l : List α) :
    l.find? p = none ↔ ¬ ∃ x ∈ l, p x = true := by
  rw [← find_isSome_iff]
  cases l.find? p <;> simp

/-! ### Descriptions -/

/-- C2: the description `createPermission` puts in the payload is `Read Users`
for the permission `read:users` and `Create Order` for `create-order`. -/
theorem description_examples (application : Application) :
    (permissionPayload application "read:users").description = "Read Users" ∧
    (permissionPayload application "create-order").description = "Create Order" := by
  constructor <;> simp only [permissionPayload] <;> decide

/-- C3: with more than one separator of a kind only the first is replaced:
`read:users:all` gets the description `Read Users:All`, which still holds a
colon, and `create-order-item` gets `Create Order-Item`, which still holds a
hyphen. -/
theorem description_keeps_later_separators (application : Application) :
    (permissionPayload application "read:users:all").description = "Read Users:All" ∧
    ':' ∈ (permissionPayload application "read:users:all").description.data ∧
    (permissionPayload application "create-order-item").description = "Create Order-Item" ∧
    '-' ∈ (permissionPayload application "create-order-item").description.data := by
  refine ⟨?_, ?_, ?_, ?_⟩ <;> simp only [permissionPayload] <;> decide

/-! ### Creation -/

/-- C1: each of `createPermission`, `createRole` and `createGroup` sends its
creation request exactly when the snapshot holds no entity of the same
identity (application id and name for permissions and roles, name for
groups); when one is there, the step fulfils with `true` and leaves the run,
snapshots and request log included, as it was. -/
theorem create_only_when_absent {σ : Type} (S : Store σ) (r : Run σ)
    (application : Application) (permission : String) (role : DeclRole) (group : DeclGroup) :
    ((∃ reply, (createPermission S application permission r).2.calls =
          r.calls ++ [Call.postPermission (permissionPayload application permission) reply]) ↔
        ¬ ∃ p ∈ r.existingPermissions,
          p.applicationId = some application.id ∧ p.name = some permission) ∧
    ((∃ p ∈ r.existingPermissions,
          p.applicationId = some application.id ∧ p.name = some permission) →
        createPermission S application permission r = (.ok .jsTrue, r)) ∧
    ((∃ reply, (createRole S application role r).2.calls =
          r.calls ++ [Call.postRole (rolePayload application role) reply]) ↔
        ¬ ∃ e ∈ r.existingRoles,
          e.applicationId = some application.id ∧ e.name = some role.name) ∧
    ((∃ e ∈ r.existingRoles,
          e.applicationId = some application.id ∧ e.name = some role.name) →
        createRole S application role r = (.ok .jsTrue, r)) ∧
    ((∃ reply, (createGroup S group r).2.calls =
          r.calls ++ [Call.postGroup (groupPayload group) reply]) ↔
        ¬ ∃ g ∈ r.existingGroups, g.name = some group.name) ∧
    ((∃ g ∈ r.existingGroups, g.name = some group.name) →
        createGroup S group r = (.ok .jsTrue, r)) := by
  refine ⟨?_, ?_, ?_, ?_, ?_, ?_⟩
  · cases h : r.existingPermissions.find? (permissionMatches application.id permission) with
    | none =>
      have hno := (find_eq_none_iff _ _).mp h
      simp only [permissionMatches_iff] at hno
      simp only [hno, not_false_eq_true, iff_true]
      unfold createPermission
      simp only [h]
      rcases hp : S.postPermission (permissionPayload application permission) r.store
        with ⟨res, st⟩
      cases res <;> simp
    | some x =>
      have hyes := (find_isSome_iff _ _).mp ⟨x, h⟩
      simp only [permissionMatches_iff] at hyes
      simp only [hyes, not_true_eq_false, iff_false]
      unfold createPermission
      simp [h]
  · intro hyes
    simp only [← permissionMatches_iff] at hyes
    obtain ⟨x, hx⟩ := (find_isSome_iff _ _).mpr hyes
    unfold createPermission
    simp [hx]
  · cases h : r.existingRoles.find? (roleMatches application.id role.name) with
    | none =>
      have hno := (find_eq_none_iff _ _).mp h
      simp only [roleMatches_iff] at hno
      simp only [hno, not_false_eq_true, iff_true]
      unfold createRole
      simp only [h]
      rcases hp : S.postRole (rolePayload application role) r.store with ⟨res, st⟩
      cases res <;> simp
    | some x =>
      have hyes := (find_isSome_iff _ _).mp ⟨x, h⟩
      simp only [roleMatches_iff] at hyes
      simp only [hyes, not_true_eq_false, iff_false]
      unfold createRole
      simp [h]
  · intro hyes
    simp only [← roleMatches_iff] at hyes
    obtain ⟨x, hx⟩ := (find_isSome_iff _ _).mpr hyes
    unfold createRole
    simp [hx]
  · cases h : r.existingGroups.find? (groupMatches group.name) with
    | none =>
      have hno := (find_eq_none_iff _ _).mp h
      simp only [groupMatches_iff] at hno
      simp only [hno, not_false_eq_true, iff_true]
      unfold createGroup
      simp only [h]
      rcases hp : S.postGroup (groupPayload group) r.store with ⟨res, st⟩
      cases res <;> simp
    | some x =>
      have hyes := (find_isSome_iff _ _).mp ⟨x, h⟩
      simp only [groupMatches_iff] at hyes
      simp only [hyes, not_true_eq_false, iff_false]
      unfold createGroup
      simp [h]
  · intro hyes
    simp only [← groupMatches_iff] at hyes
    obtain ⟨x, hx⟩ := (find_isSome_iff _ _).mpr hyes
    unfold createGroup
    simp [hx]

/-- The snapshot `[readUsers]` already holds `read:users` of `app1`: declaring
it again sends nothing and fulfils with `true`. -/
theorem create_only_when_absent_witness :
    (∃ p ∈ (runOf emptyMem [readUsers] [] []).existingPermissions,
        p.applicationId = some app1.id ∧ p.name = some "read:users") ∧
    createPermission memStore app1 "read:users" (runOf emptyMem [readUsers] [] []) =
      (.ok .jsTrue, runOf emptyMem [readUsers] [] []) :=
  ⟨⟨readUsers, by simp [runOf], rfl, rfl⟩,
    (create_only_when_absent memStore (runOf emptyMem [readUsers] [] []) app1 "read:users"
      adminDeletingNothing { name := "admins", description := none, nested := none }).2.1
      ⟨readUsers, by simp [runOf], rfl, rfl⟩⟩

/-! ### Attaching permissions to a role -/

theorem resolvePermissionIds_none_of_missing (ps : List Permission) (a : String)
    (names : List String)
    (h : ∃ n ∈ names, ¬ ∃ p ∈ ps, p.applicationId = some a ∧ p.name = some n) :
    resolvePermissionIds ps a names = none := by
  induction names with
  | nil => simp at h
  | cons n rest ih =>
    unfold resolvePermissionIds
    cases hf : ps.find? (permissionMatches a n) with
    | none => rfl
    | some x =>
      have hyes := (find_isSome_iff _ _).mp ⟨x, hf⟩
      simp only [permissionMatches_iff] at hyes
      obtain ⟨m, hm, hmiss⟩ := h
      rcases List.mem_cons.mp hm with rfl | hm
      · exact absurd hyes hmiss
      · simp [ih ⟨m, hm, hmiss⟩]

/-- C7: when a declared role lists a permission name that the permission
snapshot does not hold under the role's application id, `addRolePermissions`
rejects with a `TypeError`, and neither the request log nor the store has
changed: the `PUT` of the role is not sent. -/
theorem addRolePermissions_unresolvable {σ : Type} (S : Store σ) (r : Run σ)
    (application : Application) (role : DeclRole) (names : List String)
    (hnames : role.permissions = some names)
    (hmiss : ∃ n ∈ names, ¬ ∃ p ∈ r.existingPermissions,
      p.applicationId = some application.id ∧ p.name = some n) :
    (addRolePermissions S application role r).1 = .error .typeError ∧
    (addRolePermissions S application role r).2.calls = r.calls ∧
    (addRolePermissions S application role r).2.store = r.store := by
  have hres := resolvePermissionIds_none_of_missing _ _ _ hmiss
  have hlen : names.length ≠ 0 := by
    obtain ⟨n, hn, _⟩ := hmiss
    intro h0
    rw [List.length_eq_zero] at h0
    simp [h0] at hn
  unfold addRolePermissions
  simp only [hnames, hlen, if_false]
  cases r.existingRoles.find? (roleMatches application.id role.name) with
  | none => simp
  | some x => simp [hres]

/-- The snapshot holds `admin` of `app1`, and `delete:nothing` only under
`app2`: attaching the permissions of `admin` fails and sends nothing. -/
theorem addRolePermissions_unresolvable_witness :
    (∃ e ∈ [adminRole], e.applicationId = some app1.id ∧ e.name = some adminDeletingNothing.name) ∧
    (addRolePermissions memStore app1 adminDeletingNothing
        (runOf emptyMem [readUsers, deleteNothingElsewhere] [adminRole] [])).1 =
      .error .typeError ∧
    (addRolePermissions memStore app1 adminDeletingNothing
        (runOf emptyMem [readUsers, deleteNothingElsewhere] [adminRole] [])).2.calls = [] :=
  ⟨⟨adminRole, by simp, rfl, rfl⟩,
    (addRolePermissions_unresolvable memStore
      (runOf emptyMem [readUsers, deleteNothingElsewhere] [adminRole] []) app1
      adminDeletingNothing ["read:users", "delete:nothing"] rfl
      ⟨"delete:nothing", by simp, by simp [runOf, readUsers, deleteNothingElsewhere, app1]⟩).1,
    (addRolePermissions_unresolvable memStore
      (runOf emptyMem [readUsers, deleteNothingElsewhere] [adminRole] []) app1
      adminDeletingNothing ["read:users", "delete:nothing"] rfl
      ⟨"delete:nothing", by simp, by simp [runOf, readUsers, deleteNothingElsewhere, app1]⟩).2.1⟩

/-! ### The full scenario -/

/-- C5: on the empty in-memory store the scenario model makes `provision`
send exactly five requests, in this order: create `read:users`, create
`write:users`, create the role `admin`, put the permission list holding the
identifier of `read:users` on `admin`, create the group `admins`; no nesting
request is sent and the chain fulfils. -/
theorem full_scenario_calls :
    (provision memStore scenario emptyMem).calls =
      [ Call.postPermission
          { name := "read:users", description := "Read Users"
            applicationType := "client", applicationId := "app1" }
          (some { _id := some (freshId 0), name := some "read:users"
                  description := some "Read Users", applicationType := some "client"
                  applicationId := some "app1" }),
        Call.postPermission
          { name := "write:users", description := "Write Users"
            applicationType := "client", applicationId := "app1" }
          (some { _id := some (freshId 1), name := some "write:users"
                  description := some "Write Users", applicationType := some "client"
                  applicationId := some "app1" }),
        Call.postRole
          { name := "admin", description := some "Administrators"
            applicationType := "client", applicationId := "app1" }
          (some { _id := some (freshId 2), name := some "admin"
                  description := some "Administrators", applicationType := some "client"
                  applicationId := some "app1", permissions := none }),
        Call.putRole (some (freshId 2))
          { _id := none, name := some "admin", description := some "Administrators"
            applicationType := some "client", applicationId := some "app1"
            permissions := some [some (freshId 0)] },
        Call.postGroup
          { name := "admins", description := some "Admins" }
          (some { _id := some (freshId 3), name := some "admins"
                  description := some "Admins" }) ] ∧
    (provision memStore scenario emptyMem).chain = some (.ok ()) := by
  constructor
  · decide
  · rfl

/-! ### What the caller of `provision` is told -/

/-- C8: against a store that turns every write down, the chain of the
scenario model rejects at its first request, yet the promise `provision`
handed to its caller has fulfilled with `undefined`. -/
theorem provision_fulfils_despite_failure :
    (provision rejectingStore scenario ()).chain =
      some (.error (.storeFailure "conflict")) ∧
    (provision rejectingStore scenario ()).returned = .ok .undefined := by
  constructor <;> rfl

/-! ### A role declared twice -/

/-- C10: when the model declares `admin` twice, the first `PUT` goes to the
identifier of the role and the second to no identifier at all (the path ends
in `undefined`), the first attach having deleted `_id` from the snapshot. -/
theorem second_attach_has_no_identifier :
    (provision memStore adminDeclaredTwice emptyMem).calls.filterMap
        (fun c => match c with
          | Call.putRole roleId body => some (roleId, body.permissions)
          | _ => none) =
      [(some (freshId 1), some [some (freshId 0)]), (none, some [some (freshId 0)])] := by
  decide

/-! ### Nested groups -/

theorem nestedMatches_iff (ref : NestedRef) (g : Group) :
    nestedMatches ref g = true ↔
      g.name = some ref.name ∧ ref.description ≠ none ∧ g.description = ref.description := by
  unfold nestedMatches
  cases hd : ref.description with
  | none => simp [matchesProp]
  | some d => simp [matchesProp]

/-- The search returns the first element that passes the test. -/
theorem find_eq_of_isFirst {α : Type} (p : α → Bool) (P : α → Prop)
    (hP : ∀ x, p x = true ↔ P x) (l : List α) (x : α) (h : IsFirst P l x) :
    l.find? p = some x := by
  obtain ⟨before, after, hl, hx, hbefore⟩ := h
  rw [List.find?_eq_some]
  refine ⟨(hP x).mpr hx, before, after, hl, ?_⟩
  intro y hy
  have hny : ¬ p y = true := fun hpy => hbefore y hy ((hP y).mp hpy)
  simpa using hny

theorem resolveNestedIds_of_forall₂ (gs : List Group) (nested : List NestedRef)
    (ids : List (Option String))
    (h : List.Forall₂ (fun ref i => ∃ g,
      IsFirst (fun x => x.name = some ref.name ∧ ref.description ≠ none ∧
        x.description = ref.description) gs g ∧ g._id = i) nested ids) :
    resolveNestedIds gs nested = some ids := by
  induction h with
  | nil => rfl
  | cons hhead _ ih =>
    obtain ⟨g, hfirst, hid⟩ := hhead
    unfold resolveNestedIds
    rw [find_eq_of_isFirst _ _ (nestedMatches_iff _) gs g hfirst]
    simp [ih, hid]

theorem resolveNestedIds_none_of_undescribed (gs : List Group) (nested : List NestedRef)
    (h : ∃ ref ∈ nested, ref.description = none) :
    resolveNestedIds gs nested = none := by
  induction nested with
  | nil => simp at h
  | cons ref rest ih =>
    unfold resolveNestedIds
    cases hf : gs.find? (nestedMatches ref) with
    | none => rfl
    | some x =>
      have hx := (nestedMatches_iff ref x).mp (List.find?_some hf)
      obtain ⟨m, hm, hnone⟩ := h
      rcases List.mem_cons.mp hm with rfl | hm
      · exact absurd hnone hx.2.1
      · simp [ih ⟨m, hm, hnone⟩]

/-- C9 fails as worded with a description compared only when given: the
snapshot holds `admins` and `devs`, the latter with a description, and
`admins` is declared to nest `devs` by a reference without description.  The
first group named `devs` is there, yet `createNestedGroups` rejects with a
`TypeError` and sends no request, so not the nesting request carrying the
identifier of `devs`. -/
theorem nested_reference_without_description_fails :
    [adminsGroup, devsGroup].find?
        (nestedMatchesAsSpecified { name := "devs", description := none }) = some devsGroup ∧
    (createNestedGroups memStore adminsNestingDevs
        (runOf emptyMem [] [] [adminsGroup, devsGroup])).1 = .error .typeError ∧
    (createNestedGroups memStore adminsNestingDevs
        (runOf emptyMem [] [] [adminsGroup, devsGroup])).2.calls = [] ∧
    (createNestedGroups memStore adminsNestingDevs
        (runOf emptyMem [] [] [adminsGroup, devsGroup])).2.calls ≠
      [Call.patchNested (some "g1") [some "g2"]] := by
  refine ⟨by decide, rfl, by decide, by decide⟩

/-- C9 amended: the description is always part of the match.  For a declared
group with a non-empty nested list, when the owning group is the first of
the snapshot with that name and every reference has a first snapshot group
whose name and description both equal its own, `createNestedGroups` sends
one nesting request, on the owner's identifier, carrying the identifiers of
those groups in declared order, and leaves the snapshots alone; when some
reference gives no description, it rejects with a `TypeError` and sends
nothing. -/
theorem createNestedGroups_matches_name_and_description {σ : Type} (S : Store σ) (r : Run σ)
    (group : DeclGroup) (nested : List NestedRef)
    (hnested : group.nested = some nested) (hne : nested ≠ []) :
    (∀ (owner : Group) (ids : List (Option String)),
        IsFirst (fun g => g.name = some group.name) r.existingGroups owner →
        List.Forall₂ (fun ref i => ∃ g,
          IsFirst (fun x => x.name = some ref.name ∧ ref.description ≠ none ∧
            x.description = ref.description) r.existingGroups g ∧ g._id = i) nested ids →
        (createNestedGroups S group r).2.calls = r.calls ++ [Call.patchNested owner._id ids] ∧
        (createNestedGroups S group r).2.existingGroups = r.existingGroups ∧
        (createNestedGroups S group r).2.existingRoles = r.existingRoles ∧
        (createNestedGroups S group r).2.existingPermissions = r.existingPermissions) ∧
    ((∃ ref ∈ nested, ref.description = none) →
        createNestedGroups S group r = (.error .typeError, r)) := by
  have hlen : nested.length ≠ 0 := by
    intro h0
    exact hne (List.length_eq_zero.mp h0)
  constructor
  · intro owner ids howner hres
    have hfind := find_eq_of_isFirst _ _ (groupMatches_iff group.name) _ _ howner
    have hids := resolveNestedIds_of_forall₂ _ _ _ hres
    unfold createNestedGroups
    simp only [hnested, hlen, if_false, hids, hfind]
    rcases S.patchNested owner._id ids r.store with ⟨res, st⟩
    cases res <;> simp
  · intro hnone
    have hids := resolveNestedIds_none_of_undescribed r.existingGroups nested hnone
    unfold createNestedGroups
    simp only [hnested, hlen, if_false, hids]

/-- With the description of `devs` given in the reference, the nesting
request of `admins` carries the identifier of `devs`. -/
theorem createNestedGroups_matches_name_and_description_witness :
    (createNestedGroups memStore adminsNestingDevelopers
        (runOf emptyMem [] [] [adminsGroup, devsGroup])).2.calls =
      [Call.patchNested (some "g1") [some "g2"]] ∧
    createNestedGroups memStore adminsNestingDevs
        (runOf emptyMem [] [] [adminsGroup, devsGroup]) =
      (.error .typeError, runOf emptyMem [] [] [adminsGroup, devsGroup]) :=
  ⟨((createNestedGroups_matches_name_and_description memStore
        (runOf emptyMem [] [] [adminsGroup, devsGroup]) adminsNestingDevelopers
        [{ name := "devs", description := some "Developers" }] rfl (by simp)).1
      adminsGroup [some "g2"]
      ⟨[], [devsGroup], rfl, rfl, by simp⟩
      (List.Forall₂.cons
        ⟨devsGroup, ⟨[adminsGroup], [], rfl, ⟨rfl, by simp, rfl⟩, by simp [adminsGroup]⟩, rfl⟩
        List.Forall₂.nil)).1,
    (createNestedGroups_matches_name_and_description memStore
        (runOf emptyMem [] [] [adminsGroup, devsGroup]) adminsNestingDevs
        [{ name := "devs", description := none }] rfl (by simp)).2
      ⟨{ name := "devs", description := none }, by simp, rfl⟩⟩

/-! ### Combinators -/

/-- A property of the run that every settled promise of the first step and
of the continuation keeps is kept by their chaining. -/
theorem andThen_preserves {σ β γ : Type} (P : Run σ → Prop) (first : Step σ β)
    (next : β → Step σ γ) (hfirst : ∀ r, P r → P (first r).2)
    (hnext : ∀ v r, P r → P (next v r).2) (r : Run σ) (h : P r) :
    P (andThen first next r).2 := by
  unfold andThen
  have h1 := hfirst r h
  rcases hf : first r with ⟨res, r1⟩
  rw [hf] at h1
  cases res with
  | error e => exact h1
  | ok v => exact hnext v r1 h1

/-- A property of the run that the mapper keeps is kept by `mapSeries`. -/
theorem mapSeries_preserves {σ α β : Type} (P : Run σ → Prop) (mapper : α → Step σ β)
    (hmapper : ∀ x r, P r → P (mapper x r).2) (xs : List α) (r : Run σ) (h : P r) :
    P (mapSeries mapper xs r).2 := by
  induction xs generalizing r with
  | nil => exact h
  | cons x xs ih =>
    unfold mapSeries
    have h1 := hmapper x r h
    rcases hm : mapper x r with ⟨res, r1⟩
    rw [hm] at h1
    cases res with
    | error e => exact h1
    | ok v =>
      have h2 := ih r1 h1
      simp only
      rcases ht : mapSeries mapper xs r1 with ⟨res2, r2⟩
      rw [ht] at h2
      cases res2 with
      | error e => exact h2
      | ok vs => exact h2

/-! ### Order of the requests -/

theorem appends_refl {σ : Type} (kind : Call → Bool) (r : Run σ) : Appends kind r r :=
  ⟨[], by simp, by simp⟩

theorem appends_trans {σ : Type} {kind : Call → Bool} {r1 r2 r3 : Run σ}
    (h12 : Appends kind r1 r2) (h23 : Appends kind r2 r3) : Appends kind r1 r3 := by
  obtain ⟨a, ha, hka⟩ := h12
  obtain ⟨b, hb, hkb⟩ := h23
  refine ⟨a ++ b, by rw [hb, ha, List.append_assoc], ?_⟩
  intro c hc
  rcases List.mem_append.mp hc with hc | hc
  · exact hka c hc
  · exact hkb c hc

theorem appends_single {σ : Type} {kind : Call → Bool} {r r' : Run σ} {c : Call}
    (h : r'.calls = r.calls ++ [c]) (hc : kind c = true) : Appends kind r r' :=
  ⟨[c], h, by simpa using hc⟩

theorem createPermission_appends {σ : Type} (S : Store σ) (application : Application)
    (permission : String) (r : Run σ) :
    Appends Call.isPermissionCall r (createPermission S application permission r).2 := by
  unfold createPermission
  cases r.existingPermissions.find? (permissionMatches application.id permission) with
  | some x => exact appends_refl _ _
  | none =>
    simp only
    rcases S.postPermission (permissionPayload application permission) r.store with ⟨res, st⟩
    cases res <;> exact appends_single rfl rfl

theorem createRole_appends {σ : Type} (S : Store σ) (application : Application)
    (role : DeclRole) (r : Run σ) :
    Appends Call.isRoleCall r (createRole S application role r).2 := by
  unfold createRole
  cases r.existingRoles.find? (roleMatches application.id role.name) with
  | some x => exact appends_refl _ _
  | none =>
    simp only
    rcases S.postRole (rolePayload application role) r.store with ⟨res, st⟩
    cases res <;> exact appends_single rfl rfl

theorem addRolePermissions_appends {σ : Type} (S : Store σ) (application : Application)
    (role : DeclRole) (r : Run σ) :
    Appends Call.isRoleCall r (addRolePermissions S application role r).2 := by
  unfold addRolePermissions
  split
  · exact appends_refl _ _
  · split
    · exact appends_refl _ _
    · split
      · exact appends_refl _ _
      · simp only
        split
        · exact ⟨[], by simp, by simp⟩
        · split <;> exact appends_single rfl rfl

theorem createGroup_appends {σ : Type} (S : Store σ) (group : DeclGroup) (r : Run σ) :
    Appends Call.isGroupCall r (createGroup S group r).2 := by
  unfold createGroup
  cases r.existingGroups.find? (groupMatches group.name) with
  | some x => exact appends_refl _ _
  | none =>
    simp only
    rcases S.postGroup (groupPayload group) r.store with ⟨res, st⟩
    cases res <;> exact appends_single rfl rfl

theorem createNestedGroups_appends {σ : Type} (S : Store σ) (group : DeclGroup) (r : Run σ) :
    Appends Call.isGroupCall r (createNestedGroups S group r).2 := by
  unfold createNestedGroups
  split
  · exact appends_refl _ _
  · split
    · exact appends_refl _ _
    · simp only
      split
      · exact appends_refl _ _
      · split
        · exact appends_refl _ _
        · split <;> exact appends_single rfl rfl

theorem permissionPass_appends {σ : Type} (S : Store σ) (data : Data) (r : Run σ) :
    Appends Call.isPermissionCall r (permissionPass S data r).2 := by
  unfold permissionPass
  refine mapSeries_preserves (Appends Call.isPermissionCall r) _ ?_ _ r (appends_refl _ _)
  intro application r1 h1
  refine mapSeries_preserves (Appends Call.isPermissionCall r) _ ?_ _ r1 h1
  intro permission r2 h2
  exact appends_trans h2 (createPermission_appends S application permission r2)

theorem rolePass_appends {σ : Type} (S : Store σ) (data : Data) (r : Run σ) :
    Appends Call.isRoleCall r (rolePass S data r).2 := by
  unfold rolePass
  refine mapSeries_preserves (Appends Call.isRoleCall r) _ ?_ _ r (appends_refl _ _)
  intro application r1 h1
  refine mapSeries_preserves (Appends Call.isRoleCall r) _ ?_ _ r1 h1
  intro role r2 h2
  refine andThen_preserves (Appends Call.isRoleCall r) _ _ ?_ ?_ r2 h2
  · intro r3 h3
    exact appends_trans h3 (createRole_appends S application role r3)
  · intro _ r3 h3
    exact appends_trans h3 (addRolePermissions_appends S application role r3)

theorem groupPass_appends {σ : Type} (S : Store σ) (data : Data) (r : Run σ) :
    Appends Call.isGroupCall r (groupPass S data r).2 := by
  unfold groupPass
  refine mapSeries_preserves (Appends Call.isGroupCall r) _ ?_ _ r (appends_refl _ _)
  intro group r1 h1
  refine andThen_preserves (Appends Call.isGroupCall r) _ _ ?_ ?_ r1 h1
  · intro r2 h2
    exact appends_trans h2 (createGroup_appends S group r2)
  · intro _ r2 h2
    exact appends_trans h2 (createNestedGroups_appends S group r2)

/-- The log of the chain is the requests of the permission pass, then those
of the role pass, then those of the group pass. -/
theorem provisionChain_calls {σ : Type} (S : Store σ) (data : Data) (r : Run σ) :
    ∃ permissionCalls roleCalls groupCalls,
      (provisionChain S data r).2.calls =
        r.calls ++ (permissionCalls ++ roleCalls ++ groupCalls) ∧
      (∀ c ∈ permissionCalls, c.isPermissionCall = true) ∧
      (∀ c ∈ roleCalls, c.isRoleCall = true) ∧
      (∀ c ∈ groupCalls, c.isGroupCall = true) := by
  unfold provisionChain andThen
  obtain ⟨a, ha, hka⟩ := permissionPass_appends S data r
  rcases hp : permissionPass S data r with ⟨res1, r1⟩
  rw [hp] at ha
  cases res1 with
  | error e => exact ⟨a, [], [], by simpa using ha, hka, by simp, by simp⟩
  | ok v1 =>
    simp only
    obtain ⟨b, hb, hkb⟩ := rolePass_appends S data r1
    rcases hr : rolePass S data r1 with ⟨res2, r2⟩
    rw [hr] at hb
    cases res2 with
    | error e =>
      refine ⟨a, b, [], ?_, hka, hkb, by simp⟩
      simp only at ha hb ⊢
      rw [hb, ha]
      simp
    | ok v2 =>
      simp only
      obtain ⟨c, hc, hkc⟩ := groupPass_appends S data r2
      refine ⟨a, b, c, ?_, hka, hkb, hkc⟩
      simp only at ha hb
      rw [hc, hb, ha]
      simp

/-! ### Where the nested identifiers come from -/

/-- A list ending in `c` that is split around an element `x`: either `x` is
that last element, or the part after `x` ends in `c`. -/
theorem split_of_concat {α : Type} (l before after : List α) (x c : α)
    (h : l ++ [c] = before ++ x :: after) :
    (after = [] ∧ before = l ∧ x = c) ∨
      ∃ rest, after = rest ++ [c] ∧ l = before ++ x :: rest := by
  rcases List.eq_nil_or_concat after with rfl | ⟨rest, d, rfl⟩
  · left
    have h2 := List.append_inj' h rfl
    simp only [List.cons.injEq, and_true] at h2
    exact ⟨rfl, h2.1.symm, h2.2.symm⟩
  · right
    have h1 : l ++ [c] = (before ++ x :: rest) ++ [d] := by simpa using h
    have h2 := List.append_inj' h1 rfl
    simp only [List.cons.injEq, and_true] at h2
    exact ⟨rest, by rw [h2.2, List.concat_eq_append], h2.1⟩

theorem nestingJustified_nil (initialGroups : List Group) :
    NestingJustified initialGroups [] := by
  intro earlier groupId nestedIds later h
  simp at h

theorem nestingJustified_concat_other (initialGroups : List Group) (calls : List Call)
    (c : Call) (h : NestingJustified initialGroups calls)
    (hc : ∀ groupId nestedIds, c ≠ Call.patchNested groupId nestedIds) :
    NestingJustified initialGroups (calls ++ [c]) := by
  intro earlier groupId nestedIds later hsplit
  rcases split_of_concat _ _ _ _ _ hsplit with ⟨_, _, hx⟩ | ⟨rest, _, hl⟩
  · exact absurd hx.symm (hc groupId nestedIds)
  · exact h earlier groupId nestedIds rest hl

theorem nestingJustified_concat_patch (initialGroups : List Group) (calls : List Call)
    (groupId : Option String) (nestedIds : List (Option String))
    (h : NestingJustified initialGroups calls)
    (hids : ∀ i ∈ nestedIds, ∃ g, g._id = i ∧
      (g ∈ initialGroups ∨ ∃ payload, Call.postGroup payload (some g) ∈ calls)) :
    NestingJustified initialGroups (calls ++ [Call.patchNested groupId nestedIds]) := by
  intro earlier gid ids later hsplit
  rcases split_of_concat _ _ _ _ _ hsplit with ⟨_, hb, hx⟩ | ⟨rest, _, hl⟩
  · injection hx with _ hids2
    subst hb
    subst hids2
    exact hids
  · exact h earlier gid ids rest hl

/-- Every identifier the nested lookup returns is read from a group of the
snapshot. -/
theorem resolveNestedIds_mem (gs : List Group) (nested : List NestedRef)
    (ids : List (Option String)) (h : resolveNestedIds gs nested = some ids) :
    ∀ i ∈ ids, ∃ g ∈ gs, g._id = i := by
  induction nested generalizing ids with
  | nil =>
    simp only [resolveNestedIds, Option.some.injEq] at h
    subst h
    simp
  | cons ref rest ih =>
    unfold resolveNestedIds at h
    cases hf : gs.find? (nestedMatches ref) with
    | none => simp [hf] at h
    | some g =>
      cases hr : resolveNestedIds gs rest with
      | none => simp [hf, hr] at h
      | some tail =>
        simp only [hf, hr, Option.some.injEq] at h
        subst h
        intro i hi
        rcases List.mem_cons.mp hi with rfl | hi
        · exact ⟨g, List.mem_of_find?_eq_some hf, rfl⟩
        · exact ih tail hr i hi

/-- What a step that leaves the groups alone and logs at most requests that
are no nesting requests does to `GroupsAccounted`. -/
theorem groupsAccounted_of_other {σ : Type} (initialGroups : List Group) (r r' : Run σ)
    (h : GroupsAccounted initialGroups r) (hgroups : r'.existingGroups = r.existingGroups)
    (hcalls : r'.calls = r.calls ∨ ∃ c, r'.calls = r.calls ++ [c] ∧
      ∀ groupId nestedIds, c ≠ Call.patchNested groupId nestedIds) :
    GroupsAccounted initialGroups r' := by
  obtain ⟨hmem, hjust⟩ := h
  rcases hcalls with hsame | ⟨c, hc, hother⟩
  · exact ⟨by rw [hgroups, hsame]; exact hmem, by rw [hsame]; exact hjust⟩
  · refine ⟨?_, by rw [hc]; exact nestingJustified_concat_other _ _ _ hjust hother⟩
    rw [hgroups, hc]
    intro g hg
    rcases hmem g hg with h0 | ⟨payload, hp⟩
    · exact Or.inl h0
    · exact Or.inr ⟨payload, List.mem_append_left _ hp⟩

theorem createPermission_groupsAccounted {σ : Type} (S : Store σ) (initialGroups : List Group)
    (application : Application) (permission : String) (r : Run σ)
    (h : GroupsAccounted initialGroups r) :
    GroupsAccounted initialGroups (createPermission S application permission r).2 := by
  unfold createPermission
  cases r.existingPermissions.find? (permissionMatches application.id permission) with
  | some x => exact h
  | none =>
    simp only
    rcases S.postPermission (permissionPayload application permission) r.store with ⟨res, st⟩
    cases res <;>
      exact groupsAccounted_of_other _ r _ h rfl (Or.inr ⟨_, rfl, by intro _ _ hc; cases hc⟩)

theorem createRole_groupsAccounted {σ : Type} (S : Store σ) (initialGroups : List Group)
    (application : Application) (role : DeclRole) (r : Run σ)
    (h : GroupsAccounted initialGroups r) :
    GroupsAccounted initialGroups (createRole S application role r).2 := by
  unfold createRole
  cases r.existingRoles.find? (roleMatches application.id role.name) with
  | some x => exact h
  | none =>
    simp only
    rcases S.postRole (rolePayload application role) r.store with ⟨res, st⟩
    cases res <;>
      exact groupsAccounted_of_other _ r _ h rfl (Or.inr ⟨_, rfl, by intro _ _ hc; cases hc⟩)

theorem addRolePermissions_groupsAccounted {σ : Type} (S : Store σ)
    (initialGroups : List Group) (application : Application) (role : DeclRole) (r : Run σ)
    (h : GroupsAccounted initialGroups r) :
    GroupsAccounted initialGroups (addRolePermissions S application role r).2 := by
  unfold addRolePermissions
  split
  · exact h
  · split
    · exact h
    · split
      · exact h
      · simp only
        split
        · exact groupsAccounted_of_other _ r _ h rfl (Or.inl rfl)
        · split <;>
            exact groupsAccounted_of_other _ r _ h rfl
              (Or.inr ⟨_, rfl, by intro _ _ hc; cases hc⟩)

theorem createGroup_groupsAccounted {σ : Type} (S : Store σ) (initialGroups : List Group)
    (group : DeclGroup) (r : Run σ) (h : GroupsAccounted initialGroups r) :
    GroupsAccounted initialGroups (createGroup S group r).2 := by
  unfold createGroup
  cases r.existingGroups.find? (groupMatches group.name) with
  | some x => exact h
  | none =>
    simp only
    rcases S.postGroup (groupPayload group) r.store with ⟨res, st⟩
    cases res with
    | error e =>
      exact groupsAccounted_of_other _ r _ h rfl (Or.inr ⟨_, rfl, by intro _ _ hc; cases hc⟩)
    | ok created =>
      obtain ⟨hmem, hjust⟩ := h
      refine ⟨?_, nestingJustified_concat_other _ _ _ hjust (by intro _ _ hc; cases hc)⟩
      intro g hg
      rcases List.mem_append.mp hg with hg | hg
      · rcases hmem g hg with h0 | ⟨payload, hp⟩
        · exact Or.inl h0
        · exact Or.inr ⟨payload, List.mem_append_left _ hp⟩
      · have hgc : g = created := by simpa using hg
        subst hgc
        exact Or.inr ⟨groupPayload group, by simp⟩

theorem createNestedGroups_groupsAccounted {σ : Type} (S : Store σ)
    (initialGroups : List Group) (group : DeclGroup) (r : Run σ)
    (h : GroupsAccounted initialGroups r) :
    GroupsAccounted initialGroups (createNestedGroups S group r).2 := by
  unfold createNestedGroups
  split
  · exact h
  · split
    · exact h
    · simp only
      split
      · exact h
      · rename_i payload hpayload
        have hids : ∀ i ∈ payload, ∃ g, g._id = i ∧
            (g ∈ initialGroups ∨ ∃ p, Call.postGroup p (some g) ∈ r.calls) := by
          intro i hi
          obtain ⟨g, hg, hgi⟩ := resolveNestedIds_mem _ _ _ hpayload i hi
          exact ⟨g, hgi, h.1 g hg⟩
        split
        · exact h
        · split <;>
            exact ⟨fun g hg => by
                rcases h.1 g hg with h0 | ⟨p, hp⟩
                · exact Or.inl h0
                · exact Or.inr ⟨p, List.mem_append_left _ hp⟩,
              nestingJustified_concat_patch _ _ _ _ h.2 hids⟩

theorem provisionChain_groupsAccounted {σ : Type} (S : Store σ) (data : Data)
    (initialGroups : List Group) (r : Run σ) (h : GroupsAccounted initialGroups r) :
    GroupsAccounted initialGroups (provisionChain S data r).2 := by
  unfold provisionChain permissionPass rolePass groupPass
  refine andThen_preserves _ _ _ ?_ ?_ r h
  · intro r1 h1
    refine mapSeries_preserves _ _ ?_ _ r1 h1
    intro application r2 h2
    refine mapSeries_preserves _ _ ?_ _ r2 h2
    intro permission r3 h3
    exact createPermission_groupsAccounted S _ application permission r3 h3
  · intro _ r1 h1
    refine andThen_preserves _ _ _ ?_ ?_ r1 h1
    · intro r2 h2
      refine mapSeries_preserves _ _ ?_ _ r2 h2
      intro application r3 h3
      refine mapSeries_preserves _ _ ?_ _ r3 h3
      intro role r4 h4
      refine andThen_preserves _ _ _ ?_ ?_ r4 h4
      · intro r5 h5
        exact createRole_groupsAccounted S _ application role r5 h5
      · intro _ r5 h5
        exact addRolePermissions_groupsAccounted S _ application role r5 h5
    · intro _ r2 h2
      refine mapSeries_preserves _ _ ?_ _ r2 h2
      intro group r3 h3
      refine andThen_preserves _ _ _ ?_ ?_ r3 h3
      · intro r4 h4
        exact createGroup_groupsAccounted S _ group r4 h4
      · intro _ r4 h4
        exact createNestedGroups_groupsAccounted S _ group r4 h4

/-- C4: whatever the model, the store and its state, the write requests of
`provision` are the permission creations, then the role creations and role
`PUT`s, then the group creations and nesting `PATCH`es; and every identifier
a nesting request carries is the `_id` of a group that the initial list of
groups held or that an earlier request of the same run created. -/
theorem provision_pass_order {σ : Type} (S : Store σ) (data : Data) (st : σ) :
    (∃ permissionCalls roleCalls groupCalls,
      (provision S data st).calls = permissionCalls ++ roleCalls ++ groupCalls ∧
      (∀ c ∈ permissionCalls, c.isPermissionCall = true) ∧
      (∀ c ∈ roleCalls, c.isRoleCall = true) ∧
      (∀ c ∈ groupCalls, c.isGroupCall = true)) ∧
    (∀ initialGroups earlier groupId nestedIds later,
      S.getGroups st = .ok initialGroups →
      (provision S data st).calls = earlier ++ Call.patchNested groupId nestedIds :: later →
      ∀ i ∈ nestedIds, ∃ g, g._id = i ∧
        (g ∈ initialGroups ∨ ∃ payload, Call.postGroup payload (some g) ∈ earlier)) := by
  unfold provision
  cases hp : S.getPermissions st with
  | error e =>
    exact ⟨⟨[], [], [], by simp, by simp, by simp, by simp⟩, by intro _ _ _ _ _ _ h; simp at h⟩
  | ok ps =>
    cases hr : S.getRoles st with
    | error e =>
      exact ⟨⟨[], [], [], by simp, by simp, by simp, by simp⟩,
        by intro _ _ _ _ _ _ h; simp at h⟩
    | ok rs =>
      cases hg : S.getGroups st with
      | error e =>
        exact ⟨⟨[], [], [], by simp, by simp, by simp, by simp⟩,
          by intro _ _ _ _ _ _ h; simp at h⟩
      | ok gs =>
        simp only
        constructor
        · obtain ⟨a, b, c, hcalls, ha, hb, hc⟩ := provisionChain_calls S data
            { store := st, existingPermissions := ps, existingRoles := rs
              existingGroups := gs, calls := [] }
          exact ⟨a, b, c, by simpa using hcalls, ha, hb, hc⟩
        · intro initialGroups earlier groupId nestedIds later hinit hsplit
          have hgs : initialGroups = gs := by
            injection hinit with h
            exact h.symm
          subst hgs
          have hacc := provisionChain_groupsAccounted S data initialGroups
            { store := st, existingPermissions := ps, existingRoles := rs
              existingGroups := initialGroups, calls := [] }
            ⟨fun g hg => Or.inl hg, nestingJustified_nil _⟩
          exact hacc.2 earlier groupId nestedIds later hsplit

/-- On the empty in-memory store the model in which `admins` nests `devs`
sends the creation of `devs`, the creation of `admins` and the nesting
request, and the identifier that request carries is the one the first
creation was answered with. -/
theorem provision_pass_order_witness :
    memStore.getGroups emptyMem = .ok [] ∧
    ∃ g : Group, g._id = some (freshId 0) ∧
      (g ∈ ([] : List Group) ∨ ∃ payload, Call.postGroup payload (some g) ∈
        [Call.postGroup { name := "devs", description := some "Developers" }
            (some { _id := some (freshId 0), name := some "devs"
                    description := some "Developers" }),
         Call.postGroup { name := "admins", description := some "Administrators" }
            (some { _id := some (freshId 1), name := some "admins"
                    description := some "Administrators" })]) :=
  ⟨rfl, (provision_pass_order memStore nestingModel emptyMem).2 [] _ (some (freshId 1))
    [some (freshId 0)] [] rfl (by decide) (some (freshId 0)) (by simp)⟩

/-! ### Running twice: general lemmas -/

theorem andThen_ok {σ β γ : Type} (first : Step σ β) (next : β → Step σ γ) (r rf : Run σ)
    (v : γ) (h : andThen first next r = (.ok v, rf)) :
    ∃ v1 r1, first r = (.ok v1, r1) ∧ next v1 r1 = (.ok v, rf) := by
  unfold andThen at h
  rcases hf : first r with ⟨res, r1⟩
  rw [hf] at h
  cases res with
  | error e => simp at h
  | ok v1 => exact ⟨v1, r1, rfl, h⟩

theorem mapSeries_cons_ok {σ α β : Type} (mapper : α → Step σ β) (x : α) (xs : List α)
    (r rf : Run σ) (vs : List β) (h : mapSeries mapper (x :: xs) r = (.ok vs, rf)) :
    ∃ v r1 rest, mapper x r = (.ok v, r1) ∧ mapSeries mapper xs r1 = (.ok rest, rf) := by
  unfold mapSeries at h
  rcases hm : mapper x r with ⟨res, r1⟩
  rw [hm] at h
  cases res with
  | error e => simp at h
  | ok v =>
    simp only at h
    rcases ht : mapSeries mapper xs r1 with ⟨res2, r2⟩
    rw [ht] at h
    cases res2 with
    | error e => simp at h
    | ok rest =>
      simp only [Prod.mk.injEq] at h
      exact ⟨v, r1, rest, rfl, by rw [← h.2, ht]⟩

/-- When on every item of the list the mapper fulfils and keeps a property of
the run, `mapSeries` fulfils and keeps it. -/
theorem mapSeries_fulfils {σ α β : Type} (P : Run σ → Prop) (mapper : α → Step σ β)
    (xs : List α)
    (hmapper : ∀ x ∈ xs, ∀ r, P r → (∃ v, (mapper x r).1 = .ok v) ∧ P (mapper x r).2)
    (r : Run σ) (h : P r) :
    (∃ vs, (mapSeries mapper xs r).1 = .ok vs) ∧ P (mapSeries mapper xs r).2 := by
  induction xs generalizing r with
  | nil => exact ⟨⟨[], rfl⟩, h⟩
  | cons x xs ih =>
    unfold mapSeries
    obtain ⟨⟨v, hv⟩, h1⟩ := hmapper x (List.mem_cons_self _ _) r h
    rcases hm : mapper x r with ⟨res, r1⟩
    rw [hm] at hv h1
    simp only at hv
    subst hv
    simp only
    obtain ⟨⟨vs, hvs⟩, h2⟩ :=
      ih (fun y hy => hmapper y (List.mem_cons_of_mem _ hy)) r1 h1
    rcases ht : mapSeries mapper xs r1 with ⟨res2, r2⟩
    rw [ht] at hvs h2
    simp only at hvs
    subst hvs
    exact ⟨⟨v :: vs, rfl⟩, h2⟩

theorem andThen_fulfils {σ β γ : Type} (P : Run σ → Prop) (first : Step σ β)
    (next : β → Step σ γ)
    (hfirst : ∀ r, P r → (∃ v, (first r).1 = .ok v) ∧ P (first r).2)
    (hnext : ∀ v r, P r → (∃ w, (next v r).1 = .ok w) ∧ P (next v r).2)
    (r : Run σ) (h : P r) :
    (∃ w, (andThen first next r).1 = .ok w) ∧ P (andThen first next r).2 := by
  unfold andThen
  obtain ⟨⟨v, hv⟩, h1⟩ := hfirst r h
  rcases hf : first r with ⟨res, r1⟩
  rw [hf] at hv h1
  simp only at hv
  subst hv
  exact hnext v r1 h1

theorem extends_refl {σ : Type} (r : Run σ) : Extends r r :=
  ⟨⟨[], by simp⟩, ⟨[], by simp⟩, ⟨[], by simp⟩⟩

theorem extends_trans {σ : Type} {r1 r2 r3 : Run σ} (h12 : Extends r1 r2)
    (h23 : Extends r2 r3) : Extends r1 r3 := by
  obtain ⟨⟨a, ha⟩, ⟨b, hb⟩, ⟨c, hc⟩⟩ := h12
  obtain ⟨⟨a2, ha2⟩, ⟨b2, hb2⟩, ⟨c2, hc2⟩⟩ := h23
  exact ⟨⟨a ++ a2, by rw [ha2, ha, List.append_assoc]⟩,
    ⟨b ++ b2, by rw [hb2, hb, List.append_assoc]⟩,
    ⟨c ++ c2, by rw [hc2, hc, List.append_assoc]⟩⟩

/-- After a fulfilled `mapSeries`, what each item's step established still
holds at the end, provided every step relates the run before to the run
after by a preorder `R` along which the fact survives. -/
theorem mapSeries_establishes {σ α β : Type} (R : Run σ → Run σ → Prop)
    (hrefl : ∀ r, R r r) (htrans : ∀ a b c, R a b → R b c → R a c)
    (Q : α → Run σ → Prop) (mapper : α → Step σ β)
    (hmono : ∀ x r r', R r r' → Q x r → Q x r')
    (hext : ∀ x r, R r (mapper x r).2)
    (xs : List α)
    (hest : ∀ x ∈ xs, ∀ r v r', mapper x r = (.ok v, r') → Q x r')
    (r rf : Run σ) (vs : List β) (h : mapSeries mapper xs r = (.ok vs, rf)) :
    ∀ x ∈ xs, Q x rf := by
  induction xs generalizing r vs with
  | nil => simp
  | cons y ys ih =>
    obtain ⟨v, r1, rest, hy, hrest⟩ := mapSeries_cons_ok mapper y ys r rf vs h
    intro x hx
    rcases List.mem_cons.mp hx with rfl | hx
    · have hq := hest x (List.mem_cons_self _ _) r v r1 hy
      have hgrow : R r1 rf := by
        have := mapSeries_preserves (R r1) mapper
          (fun z r2 h2 => htrans _ _ _ h2 (hext z r2)) ys r1 (hrefl r1)
        rw [hrest] at this
        exact this
      exact hmono x r1 rf hgrow hq
    · exact ih (fun z hz => hest z (List.mem_cons_of_mem _ hz)) r1 rest hrest x hx

/-- After a fulfilled `mapSeries`, a projection of the log has grown by what
each item's step added, read off the final run, provided every step relates
the run before to the run after by a preorder `R` along which what a
fulfilled step added reads the same. -/
theorem mapSeries_log {σ α β γ : Type} (R : Run σ → Run σ → Prop)
    (hrefl : ∀ r, R r r) (htrans : ∀ a b c, R a b → R b c → R a c)
    (proj : List Call → List γ)
    (E : α → Run σ → List γ) (mapper : α → Step σ β)
    (hext : ∀ x r, R r (mapper x r).2)
    (xs : List α)
    (hstep : ∀ x ∈ xs, ∀ r v r', mapper x r = (.ok v, r') →
      proj r'.calls = proj r.calls ++ E x r' ∧ ∀ r'', R r' r'' → E x r'' = E x r')
    (r rf : Run σ) (vs : List β) (h : mapSeries mapper xs r = (.ok vs, rf)) :
    proj rf.calls = proj r.calls ++ (xs.map (fun x => E x rf)).flatten := by
  induction xs generalizing r vs with
  | nil =>
    simp only [mapSeries, Prod.mk.injEq] at h
    simp [h.2]
  | cons y ys ih =>
    obtain ⟨v, r1, rest, hy, hrest⟩ := mapSeries_cons_ok mapper y ys r rf vs h
    obtain ⟨hadd, hstable⟩ := hstep y (List.mem_cons_self _ _) r v r1 hy
    have hgrow : R r1 rf := by
      have := mapSeries_preserves (R r1) mapper
        (fun z r2 h2 => htrans _ _ _ h2 (hext z r2)) ys r1 (hrefl r1)
      rw [hrest] at this
      exact this
    rw [ih (fun z hz => hstep z (List.mem_cons_of_mem _ hz)) r1 rest hrest, hadd]
    simp [hstable rf hgrow]

/-! ### Running twice: lookups in a growing snapshot -/

/-- A lookup that hits keeps its result when the list grows at the end. -/
theorem find_append_of_some {α : Type} (p : α → Bool) (l more : List α) (x : α)
    (h : l.find? p = some x) : (l ++ more).find? p = some x := by
  simp [List.find?_append, h]

theorem resolvePermissionIds_append (ps more : List Permission) (a : String)
    (names : List String) (ids : List (Option String))
    (h : resolvePermissionIds ps a names = some ids) :
    resolvePermissionIds (ps ++ more) a names = some ids := by
  induction names generalizing ids with
  | nil => simpa [resolvePermissionIds] using h
  | cons n rest ih =>
    unfold resolvePermissionIds at h ⊢
    cases hf : ps.find? (permissionMatches a n) with
    | none => simp [hf] at h
    | some x =>
      cases hr : resolvePermissionIds ps a rest with
      | none => simp [hf, hr] at h
      | some tail =>
        simp only [hf, hr] at h
        simp only [find_append_of_some _ _ more _ hf, ih tail hr]
        exact h

theorem resolveNestedIds_append (gs more : List Group) (nested : List NestedRef)
    (ids : List (Option String)) (h : resolveNestedIds gs nested = some ids) :
    resolveNestedIds (gs ++ more) nested = some ids := by
  induction nested generalizing ids with
  | nil => simpa [resolveNestedIds] using h
  | cons ref rest ih =>
    unfold resolveNestedIds at h ⊢
    cases hf : gs.find? (nestedMatches ref) with
    | none => simp [hf] at h
    | some x =>
      cases hr : resolveNestedIds gs rest with
      | none => simp [hf, hr] at h
      | some tail =>
        simp only [hf, hr] at h
        simp only [find_append_of_some _ _ more _ hf, ih tail hr]
        exact h

theorem roleMatches_iff_key (a n : String) (e : Role) :
    roleMatches a n e = true ↔ roleKey e = (some a, some n) := by
  rw [roleMatches_iff]
  simp [roleKey, Prod.ext_iff]

/-- A role lookup hits exactly when the identity is among those of the
snapshot. -/
theorem find_role_isSome_iff (a n : String) (roles : List Role) :
    (∃ e, roles.find? (roleMatches a n) = some e) ↔
      (some a, some n) ∈ roles.map roleKey := by
  rw [find_isSome_iff]
  simp only [roleMatches_iff_key, List.mem_map]

/-- The mutation of the role found keeps the identities of the snapshot. -/
theorem modifyFirst_map_roleKey (p : Role → Bool) (f : Role → Role)
    (hf : ∀ e, roleKey (f e) = roleKey e) (l : List Role) :
    (modifyFirst p f l).map roleKey = l.map roleKey := by
  induction l with
  | nil => rfl
  | cons x xs ih =>
    unfold modifyFirst
    split
    · simp [hf]
    · simp [ih]

/-! ### Running twice: every step only extends the snapshots -/

theorem createPermission_extends {σ : Type} (S : Store σ) (application : Application)
    (permission : String) (r : Run σ) :
    Extends r (createPermission S application permission r).2 := by
  unfold createPermission
  cases r.existingPermissions.find? (permissionMatches application.id permission) with
  | some x => exact extends_refl r
  | none =>
    simp only
    rcases S.postPermission (permissionPayload application permission) r.store with ⟨res, st⟩
    cases res with
    | error e => exact ⟨⟨[], by simp⟩, ⟨[], by simp⟩, ⟨[], by simp⟩⟩
    | ok created => exact ⟨⟨[created], rfl⟩, ⟨[], by simp⟩, ⟨[], by simp⟩⟩

theorem createRole_extends {σ : Type} (S : Store σ) (application : Application)
    (role : DeclRole) (r : Run σ) :
    Extends r (createRole S application role r).2 := by
  unfold createRole
  cases r.existingRoles.find? (roleMatches application.id role.name) with
  | some x => exact extends_refl r
  | none =>
    simp only
    rcases S.postRole (rolePayload application role) r.store with ⟨res, st⟩
    cases res with
    | error e => exact ⟨⟨[], by simp⟩, ⟨[], by simp⟩, ⟨[], by simp⟩⟩
    | ok created => exact ⟨⟨[], by simp⟩, ⟨[roleKey created], by simp⟩, ⟨[], by simp⟩⟩

/-- The ways `addRolePermissions` settles.  It never touches the permissions
or the groups of the snapshot and keeps the identities of the roles.  Either
the role lists no permission and nothing happens; or a lookup misses and it
rejects with a `TypeError`, nothing sent; or it sends one `PUT` on the `_id`
of the role found, with the identifiers resolved, and settles as the store
answers. -/
theorem addRolePermissions_cases {σ : Type} (S : Store σ) (application : Application)
    (role : DeclRole) (r : Run σ) :
    ((addRolePermissions S application role r).2.existingPermissions = r.existingPermissions ∧
      (addRolePermissions S application role r).2.existingGroups = r.existingGroups ∧
      (addRolePermissions S application role r).2.existingRoles.map roleKey =
        r.existingRoles.map roleKey) ∧
    (((role.permissions = none ∨ ∃ names, role.permissions = some names ∧ names.length = 0) ∧
        addRolePermissions S application role r = (.ok .undefined, r)) ∨
      (∃ names, role.permissions = some names ∧ names.length ≠ 0 ∧
        (r.existingRoles.find? (roleMatches application.id role.name) = none ∨
          resolvePermissionIds r.existingPermissions application.id names = none) ∧
        (addRolePermissions S application role r).1 = .error .typeError ∧
        (addRolePermissions S application role r).2.calls = r.calls ∧
        (addRolePermissions S application role r).2.store = r.store) ∨
      (∃ names existingRole ids res st,
        role.permissions = some names ∧ names.length ≠ 0 ∧
        r.existingRoles.find? (roleMatches application.id role.name) = some existingRole ∧
        resolvePermissionIds r.existingPermissions application.id names = some ids ∧
        S.putRole existingRole._id { existingRole with _id := none, permissions := some ids }
          r.store = (res, st) ∧
        (addRolePermissions S application role r).1 = res.map (fun _ => JsRet.jsTrue) ∧
        (addRolePermissions S application role r).2.calls =
          r.calls ++ [Call.putRole existingRole._id
            { existingRole with _id := none, permissions := some ids }] ∧
        (addRolePermissions S application role r).2.store = st)) := by
  have hone : (modifyFirst (roleMatches application.id role.name)
      (fun e => { e with _id := none }) r.existingRoles).map roleKey =
      r.existingRoles.map roleKey :=
    modifyFirst_map_roleKey _ _ (by intro e; rfl) _
  have htwo : ∀ ids : List (Option String),
      (modifyFirst (roleMatches application.id role.name)
        (fun e => { e with permissions := some ids })
        (modifyFirst (roleMatches application.id role.name)
          (fun e => { e with _id := none }) r.existingRoles)).map roleKey =
      r.existingRoles.map roleKey := by
    intro ids
    rw [modifyFirst_map_roleKey _ _ (by intro e; rfl), hone]
  cases hperm : role.permissions with
  | none =>
    have hout : addRolePermissions S application role r = (.ok .undefined, r) := by
      unfold addRolePermissions
      simp only [hperm]
    rw [hout]
    exact ⟨⟨rfl, rfl, rfl⟩, Or.inl ⟨Or.inl rfl, rfl⟩⟩
  | some names =>
    by_cases hlen : names.length = 0
    · have hout : addRolePermissions S application role r = (.ok .undefined, r) := by
        unfold addRolePermissions
        simp only [hperm, hlen, if_true]
      rw [hout]
      exact ⟨⟨rfl, rfl, rfl⟩, Or.inl ⟨Or.inr ⟨names, rfl, hlen⟩, rfl⟩⟩
    · cases hfind : r.existingRoles.find? (roleMatches application.id role.name) with
      | none =>
        have hout : addRolePermissions S application role r = (.error .typeError, r) := by
          unfold addRolePermissions
          simp only [hperm, hlen, if_false, hfind]
        rw [hout]
        exact ⟨⟨rfl, rfl, rfl⟩,
          Or.inr (Or.inl ⟨names, rfl, hlen, Or.inl rfl, rfl, rfl, rfl⟩)⟩
      | some existingRole =>
        cases hres : resolvePermissionIds r.existingPermissions application.id names with
        | none =>
          have hout : addRolePermissions S application role r =
              (.error .typeError, { r with
                existingRoles := modifyFirst (roleMatches application.id role.name)
                  (fun e => { e with _id := none }) r.existingRoles }) := by
            unfold addRolePermissions
            simp only [hperm, hlen, if_false, hfind, hres]
          rw [hout]
          exact ⟨⟨rfl, rfl, hone⟩,
            Or.inr (Or.inl ⟨names, rfl, hlen, Or.inr hres, rfl, rfl, rfl⟩)⟩
        | some ids =>
          rcases hput : S.putRole existingRole._id
            { existingRole with _id := none, permissions := some ids } r.store with ⟨res, st⟩
          have hout : addRolePermissions S application role r =
              (res.map (fun _ => JsRet.jsTrue),
               { r with
                store := st
                existingRoles := modifyFirst (roleMatches application.id role.name)
                  (fun e => { e with permissions := some ids })
                  (modifyFirst (roleMatches application.id role.name)
                    (fun e => { e with _id := none }) r.existingRoles)
                calls := r.calls ++ [Call.putRole existingRole._id
                  { existingRole with _id := none, permissions := some ids }] }) := by
            unfold addRolePermissions
            simp only [hperm, hlen, if_false, hfind, hres, hput]
            cases res <;> rfl
          rw [hout]
          exact ⟨⟨rfl, rfl, htwo ids⟩,
            Or.inr (Or.inr ⟨names, existingRole, ids, res, st, rfl, hlen, rfl, hres,
              hput, rfl, rfl, rfl⟩)⟩

theorem addRolePermissions_extends {σ : Type} (S : Store σ) (application : Application)
    (role : DeclRole) (r : Run σ) :
    Extends r (addRolePermissions S application role r).2 := by
  obtain ⟨⟨hp, hg, hk⟩, _⟩ := addRolePermissions_cases S application role r
  exact ⟨⟨[], by simp [hp]⟩, ⟨[], by simp [hk]⟩, ⟨[], by simp [hg]⟩⟩

theorem createGroup_extends {σ : Type} (S : Store σ) (group : DeclGroup) (r : Run σ) :
    Extends r (createGroup S group r).2 := by
  unfold createGroup
  cases r.existingGroups.find? (groupMatches group.name) with
  | some x => exact extends_refl r
  | none =>
    simp only
    rcases S.postGroup (groupPayload group) r.store with ⟨res, st⟩
    cases res with
    | error e => exact ⟨⟨[], by simp⟩, ⟨[], by simp⟩, ⟨[], by simp⟩⟩
    | ok created => exact ⟨⟨[], by simp⟩, ⟨[], by simp⟩, ⟨[created], rfl⟩⟩

/-- The ways `createNestedGroups` settles.  It never touches the snapshots.
Either the group nests nothing and nothing happens; or a lookup misses and
it rejects with a `TypeError`, nothing sent; or it sends one `PATCH` on the
`_id` of the owner found, with the identifiers resolved, and settles as the
store answers. -/
theorem createNestedGroups_cases {σ : Type} (S : Store σ) (group : DeclGroup) (r : Run σ) :
    ((createNestedGroups S group r).2.existingPermissions = r.existingPermissions ∧
      (createNestedGroups S group r).2.existingGroups = r.existingGroups ∧
      (createNestedGroups S group r).2.existingRoles = r.existingRoles) ∧
    (((group.nested = none ∨ ∃ nested, group.nested = some nested ∧ nested.length = 0) ∧
        createNestedGroups S group r = (.ok .undefined, r)) ∨
      (∃ nested, group.nested = some nested ∧ nested.length ≠ 0 ∧
        (resolveNestedIds r.existingGroups nested = none ∨
          r.existingGroups.find? (groupMatches group.name) = none) ∧
        createNestedGroups S group r = (.error .typeError, r)) ∨
      (∃ nested owner ids res st,
        group.nested = some nested ∧ nested.length ≠ 0 ∧
        r.existingGroups.find? (groupMatches group.name) = some owner ∧
        resolveNestedIds r.existingGroups nested = some ids ∧
        S.patchNested owner._id ids r.store = (res, st) ∧
        (createNestedGroups S group r).1 = res.map (fun _ => JsRet.jsTrue) ∧
        (createNestedGroups S group r).2.calls =
          r.calls ++ [Call.patchNested owner._id ids] ∧
        (createNestedGroups S group r).2.store = st)) := by
  cases hnested : group.nested with
  | none =>
    have hout : createNestedGroups S group r = (.ok .undefined, r) := by
      unfold createNestedGroups
      simp only [hnested]
    rw [hout]
    exact ⟨⟨rfl, rfl, rfl⟩, Or.inl ⟨Or.inl rfl, rfl⟩⟩
  | some nested =>
    by_cases hlen : nested.length = 0
    · have hout : createNestedGroups S group r = (.ok .undefined, r) := by
        unfold createNestedGroups
        simp only [hnested, hlen, if_true]
      rw [hout]
      exact ⟨⟨rfl, rfl, rfl⟩, Or.inl ⟨Or.inr ⟨nested, rfl, hlen⟩, rfl⟩⟩
    · cases hres : resolveNestedIds r.existingGroups nested with
      | none =>
        have hout : createNestedGroups S group r = (.error .typeError, r) := by
          unfold createNestedGroups
          simp only [hnested, hlen, if_false, hres]
        rw [hout]
        exact ⟨⟨rfl, rfl, rfl⟩, Or.inr (Or.inl ⟨nested, rfl, hlen, Or.inl hres, rfl⟩)⟩
      | some ids =>
        cases hfind : r.existingGroups.find? (groupMatches group.name) with
        | none =>
          have hout : createNestedGroups S group r = (.error .typeError, r) := by
            unfold createNestedGroups
            simp only [hnested, hlen, if_false, hres, hfind]
          rw [hout]
          exact ⟨⟨rfl, rfl, rfl⟩, Or.inr (Or.inl ⟨nested, rfl, hlen, Or.inr rfl, rfl⟩)⟩
        | some owner =>
          rcases hpatch : S.patchNested owner._id ids r.store with ⟨res, st⟩
          have hout : createNestedGroups S group r =
              (res.map (fun _ => JsRet.jsTrue),
               { r with
                store := st
                calls := r.calls ++ [Call.patchNested owner._id ids] }) := by
            unfold createNestedGroups
            simp only [hnested, hlen, if_false, hres, hfind, hpatch]
            cases res <;> rfl
          rw [hout]
          exact ⟨⟨rfl, rfl, rfl⟩,
            Or.inr (Or.inr ⟨nested, owner, ids, res, st, rfl, hlen, rfl, hres, hpatch,
              rfl, rfl, rfl⟩)⟩

theorem createNestedGroups_extends {σ : Type} (S : Store σ) (group : DeclGroup) (r : Run σ) :
    Extends r (createNestedGroups S group r).2 := by
  obtain ⟨⟨hp, hg, hr⟩, _⟩ := createNestedGroups_cases S group r
  exact ⟨⟨[], by simp [hp]⟩, ⟨[], by simp [hr]⟩, ⟨[], by simp [hg]⟩⟩

theorem roleStep_extends {σ : Type} (S : Store σ) (application : Application)
    (role : DeclRole) (r : Run σ) :
    Extends r (andThen (createRole S application role)
      (fun _ => addRolePermissions S application role) r).2 :=
  andThen_preserves (Extends r) _ _
    (fun r1 h1 => extends_trans h1 (createRole_extends S application role r1))
    (fun _ r1 h1 => extends_trans h1 (addRolePermissions_extends S application role r1))
    r (extends_refl r)

theorem groupStep_extends {σ : Type} (S : Store σ) (group : DeclGroup) (r : Run σ) :
    Extends r (andThen (createGroup S group) (fun _ => createNestedGroups S group) r).2 :=
  andThen_preserves (Extends r) _ _
    (fun r1 h1 => extends_trans h1 (createGroup_extends S group r1))
    (fun _ r1 h1 => extends_trans h1 (createNestedGroups_extends S group r1))
    r (extends_refl r)

theorem permissionPass_extends {σ : Type} (S : Store σ) (data : Data) (r : Run σ) :
    Extends r (permissionPass S data r).2 := by
  unfold permissionPass
  refine mapSeries_preserves (Extends r) _ ?_ _ r (extends_refl r)
  intro application r1 h1
  refine mapSeries_preserves (Extends r) _ ?_ _ r1 h1
  intro permission r2 h2
  exact extends_trans h2 (createPermission_extends S application permission r2)

theorem rolePass_extends {σ : Type} (S : Store σ) (data : Data) (r : Run σ) :
    Extends r (rolePass S data r).2 := by
  unfold rolePass
  refine mapSeries_preserves (Extends r) _ ?_ _ r (extends_refl r)
  intro application r1 h1
  refine mapSeries_preserves (Extends r) _ ?_ _ r1 h1
  intro role r2 h2
  exact extends_trans h2 (roleStep_extends S application role r2)

theorem groupPass_extends {σ : Type} (S : Store σ) (data : Data) (r : Run σ) :
    Extends r (groupPass S data r).2 := by
  unfold groupPass
  refine mapSeries_preserves (Extends r) _ ?_ _ r (extends_refl r)
  intro group r1 h1
  exact extends_trans h1 (groupStep_extends S group r1)

/-! ### Running twice: the snapshots follow a reliable store -/

theorem createPermission_sync {σ : Type} (S : Store σ) (hS : Reliable S)
    (application : Application) (permission : String) (r : Run σ) (h : Sync S r) :
    Sync S (createPermission S application permission r).2 := by
  unfold createPermission
  cases r.existingPermissions.find? (permissionMatches application.id permission) with
  | some x => exact h
  | none =>
    obtain ⟨created, st', hpost, _, _, hp, hr, hg⟩ :=
      hS.postPermission (permissionPayload application permission) r.store
    simp only [hpost]
    exact ⟨by rw [hp, ← h.1], by rw [hr, ← h.2.1], by rw [hg, ← h.2.2]⟩

theorem createRole_sync {σ : Type} (S : Store σ) (hS : Reliable S)
    (application : Application) (role : DeclRole) (r : Run σ) (h : Sync S r) :
    Sync S (createRole S application role r).2 := by
  unfold createRole
  cases r.existingRoles.find? (roleMatches application.id role.name) with
  | some x => exact h
  | none =>
    obtain ⟨created, st', hpost, _, _, hp, hr, hg⟩ :=
      hS.postRole (rolePayload application role) r.store
    simp only [hpost]
    exact ⟨by rw [hp, ← h.1], by rw [hr, ← h.2.1]; simp, by rw [hg, ← h.2.2]⟩

theorem addRolePermissions_sync {σ : Type} (S : Store σ) (hS : Reliable S)
    (application : Application) (role : DeclRole) (r : Run σ) (h : Sync S r) :
    Sync S (addRolePermissions S application role r).2 := by
  obtain ⟨⟨hp, hg, hk⟩, hcase⟩ := addRolePermissions_cases S application role r
  rcases hcase with ⟨_, hout⟩ | ⟨names, _, _, _, _, _, hst⟩ |
    ⟨names, existingRole, ids, res, st, _, _, _, _, hput, _, _, hst⟩
  · rw [hout]
    exact h
  · exact ⟨by rw [hp, hst]; exact h.1, by rw [hk, hst]; exact h.2.1,
      by rw [hg, hst]; exact h.2.2⟩
  · obtain ⟨st', hput', hp', hr', hg'⟩ := hS.putRole existingRole._id
      { existingRole with _id := none, permissions := some ids } r.store
    rw [hput] at hput'
    have hst' : st = st' := (Prod.mk.inj hput').2
    subst hst'
    exact ⟨by rw [hp, hst, hp']; exact h.1, by rw [hk, hst, hr']; exact h.2.1,
      by rw [hg, hst, hg']; exact h.2.2⟩

theorem createGroup_sync {σ : Type} (S : Store σ) (hS : Reliable S)
    (group : DeclGroup) (r : Run σ) (h : Sync S r) :
    Sync S (createGroup S group r).2 := by
  unfold createGroup
  cases r.existingGroups.find? (groupMatches group.name) with
  | some x => exact h
  | none =>
    obtain ⟨created, st', hpost, _, hp, hr, hg⟩ := hS.postGroup (groupPayload group) r.store
    simp only [hpost]
    exact ⟨by rw [hp, ← h.1], by rw [hr, ← h.2.1], by rw [hg, ← h.2.2]⟩

theorem createNestedGroups_sync {σ : Type} (S : Store σ) (hS : Reliable S)
    (group : DeclGroup) (r : Run σ) (h : Sync S r) :
    Sync S (createNestedGroups S group r).2 := by
  obtain ⟨⟨hp, hg, hr⟩, hcase⟩ := createNestedGroups_cases S group r
  rcases hcase with ⟨_, hout⟩ | ⟨nested, _, _, _, hout⟩ |
    ⟨nested, owner, ids, res, st, _, _, _, _, hpatch, _, _, hst⟩
  · rw [hout]
    exact h
  · rw [hout]
    exact h
  · obtain ⟨st', hpatch', hp', hr', hg'⟩ := hS.patchNested owner._id ids r.store
    rw [hpatch] at hpatch'
    have hst' : st = st' := (Prod.mk.inj hpatch').2
    subst hst'
    exact ⟨by rw [hp, hst, hp']; exact h.1, by rw [hr, hst, hr']; exact h.2.1,
      by rw [hg, hst, hg']; exact h.2.2⟩

theorem provisionChain_sync {σ : Type} (S : Store σ) (hS : Reliable S) (data : Data)
    (r : Run σ) (h : Sync S r) : Sync S (provisionChain S data r).2 := by
  unfold provisionChain permissionPass rolePass groupPass
  refine andThen_preserves _ _ _ ?_ ?_ r h
  · intro r1 h1
    refine mapSeries_preserves _ _ ?_ _ r1 h1
    intro application r2 h2
    refine mapSeries_preserves _ _ ?_ _ r2 h2
    intro permission r3 h3
    exact createPermission_sync S hS application permission r3 h3
  · intro _ r1 h1
    refine andThen_preserves _ _ _ ?_ ?_ r1 h1
    · intro r2 h2
      refine mapSeries_preserves _ _ ?_ _ r2 h2
      intro application r3 h3
      refine mapSeries_preserves _ _ ?_ _ r3 h3
      intro role r4 h4
      refine andThen_preserves _ _ _ ?_ ?_ r4 h4
      · intro r5 h5
        exact createRole_sync S hS application role r5 h5
      · intro _ r5 h5
        exact addRolePermissions_sync S hS application role r5 h5
    · intro _ r2 h2
      refine mapSeries_preserves _ _ ?_ _ r2 h2
      intro group r3 h3
      refine andThen_preserves _ _ _ ?_ ?_ r3 h3
      · intro r4 h4
        exact createGroup_sync S hS group r4 h4
      · intro _ r4 h4
        exact createNestedGroups_sync S hS group r4 h4

/-! ### Running twice: what the attaches carry -/

theorem rolePermissionLists_append (a b : List Call) :
    rolePermissionLists (a ++ b) = rolePermissionLists a ++ rolePermissionLists b := by
  simp [rolePermissionLists, List.filterMap_append]

theorem nestingLists_append (a b : List Call) :
    nestingLists (a ++ b) = nestingLists a ++ nestingLists b := by
  simp [nestingLists, List.filterMap_append]

theorem rolePermissionLists_of_appends {σ : Type} (kind : Call → Bool) (r r' : Run σ)
    (h : Appends kind r r')
    (hkind : ∀ c, kind c = true → ∀ roleId body, c ≠ Call.putRole roleId body) :
    rolePermissionLists r'.calls = rolePermissionLists r.calls := by
  obtain ⟨added, hcalls, hall⟩ := h
  rw [hcalls, rolePermissionLists_append]
  have hnil : rolePermissionLists added = [] := by
    unfold rolePermissionLists
    rw [List.filterMap_eq_nil_iff]
    intro c hc
    have hno := hkind c (hall c hc)
    cases c with
    | putRole roleId body => exact absurd rfl (hno roleId body)
    | _ => rfl
  simp [hnil]

theorem nestingLists_of_appends {σ : Type} (kind : Call → Bool) (r r' : Run σ)
    (h : Appends kind r r')
    (hkind : ∀ c, kind c = true → ∀ groupId nestedIds, c ≠ Call.patchNested groupId nestedIds) :
    nestingLists r'.calls = nestingLists r.calls := by
  obtain ⟨added, hcalls, hall⟩ := h
  rw [hcalls, nestingLists_append]
  have hnil : nestingLists added = [] := by
    unfold nestingLists
    rw [List.filterMap_eq_nil_iff]
    intro c hc
    have hno := hkind c (hall c hc)
    cases c with
    | patchNested groupId nestedIds => exact absurd rfl (hno groupId nestedIds)
    | _ => rfl
  simp [hnil]

theorem createRole_log {σ : Type} (S : Store σ) (application : Application)
    (role : DeclRole) (r : Run σ) :
    rolePermissionLists (createRole S application role r).2.calls =
        rolePermissionLists r.calls ∧
      (createRole S application role r).2.existingPermissions = r.existingPermissions := by
  unfold createRole
  cases r.existingRoles.find? (roleMatches application.id role.name) with
  | some x => exact ⟨rfl, rfl⟩
  | none =>
    simp only
    rcases S.postRole (rolePayload application role) r.store with ⟨res, st⟩
    cases res <;> simp [rolePermissionLists_append, rolePermissionLists]

theorem createGroup_log {σ : Type} (S : Store σ) (group : DeclGroup) (r : Run σ) :
    nestingLists (createGroup S group r).2.calls = nestingLists r.calls ∧
      (createGroup S group r).2.existingPermissions = r.existingPermissions := by
  unfold createGroup
  cases r.existingGroups.find? (groupMatches group.name) with
  | some x => exact ⟨rfl, rfl⟩
  | none =>
    simp only
    rcases S.postGroup (groupPayload group) r.store with ⟨res, st⟩
    cases res <;> simp [nestingLists_append, nestingLists]

/-- A fulfilled role step adds to the permission lists of the log exactly
what the declared role resolves to in the permission snapshot. -/
theorem roleStep_log {σ : Type} (S : Store σ) (application : Application) (role : DeclRole)
    (r r' : Run σ) (v : JsRet Unit)
    (h : andThen (createRole S application role)
      (fun _ => addRolePermissions S application role) r = (.ok v, r')) :
    rolePermissionLists r'.calls =
        rolePermissionLists r.calls ++
          expectedRoleAttach application role r'.existingPermissions ∧
      r'.existingPermissions = r.existingPermissions := by
  obtain ⟨v1, r1, hcreate, hadd⟩ := andThen_ok _ _ r r' v h
  have hlog := createRole_log S application role r
  rw [hcreate] at hlog
  simp only at hlog
  obtain ⟨⟨hp, _, _⟩, hcase⟩ := addRolePermissions_cases S application role r1
  rw [hadd] at hp hcase
  simp only at hp hcase
  refine ⟨?_, by rw [hp, hlog.2]⟩
  rcases hcase with ⟨hnone, hout⟩ | ⟨names, _, _, _, herr, _, _⟩ |
    ⟨names, existingRole, ids, res, st, hnames, hlen, _, hres, _, _, hcalls, _⟩
  · have hr : r' = r1 := (Prod.mk.inj hout).2
    subst hr
    rw [hlog.1]
    rcases hnone with hnone | ⟨names, hnames, hlen⟩
    · simp [expectedRoleAttach, hnone]
    · simp [expectedRoleAttach, hnames, hlen]
  · simp at herr
  · rw [hcalls, rolePermissionLists_append, hlog.1, hp]
    simp [expectedRoleAttach, hnames, hlen, hres, rolePermissionLists]

/-- A fulfilled group step adds to the nesting requests of the log exactly
what the declared group resolves to in the group snapshot, and that reading
stays the same when the snapshot grows. -/
theorem groupStep_log {σ : Type} (S : Store σ) (group : DeclGroup)
    (r r' : Run σ) (v : JsRet Unit)
    (h : andThen (createGroup S group) (fun _ => createNestedGroups S group) r = (.ok v, r')) :
    nestingLists r'.calls = nestingLists r.calls ++ expectedNesting group r'.existingGroups ∧
      ∀ r'', Extends r' r'' →
        expectedNesting group r''.existingGroups = expectedNesting group r'.existingGroups := by
  obtain ⟨v1, r1, hcreate, hnest⟩ := andThen_ok _ _ r r' v h
  have hlog := createGroup_log S group r
  rw [hcreate] at hlog
  simp only at hlog
  obtain ⟨⟨_, hg, _⟩, hcase⟩ := createNestedGroups_cases S group r1
  rw [hnest] at hg hcase
  simp only at hg hcase
  rcases hcase with ⟨hnone, hout⟩ | ⟨nested, _, _, _, herr⟩ |
    ⟨nested, owner, ids, res, st, hnested, hlen, hfind, hres, _, _, hcalls, _⟩
  · have hr : r' = r1 := (Prod.mk.inj hout).2
    subst hr
    rw [hlog.1]
    rcases hnone with hnone | ⟨nested, hnested, hlen⟩
    · simp [expectedNesting, hnone]
    · simp [expectedNesting, hnested, hlen]
  · simp at herr
  · constructor
    · rw [hcalls, nestingLists_append, hlog.1, hg]
      simp [expectedNesting, hnested, hlen, hres, hfind, nestingLists]
    · intro r'' hext
      obtain ⟨_, _, ⟨more, hmore⟩⟩ := hext
      rw [hmore, hg]
      simp [expectedNesting, hnested, hlen, hres, hfind,
        find_append_of_some _ _ more _ hfind, resolveNestedIds_append _ more _ _ hres]

theorem roleStep_samePermissions {σ : Type} (S : Store σ) (application : Application)
    (role : DeclRole) (r : Run σ) :
    SamePermissions r (andThen (createRole S application role)
      (fun _ => addRolePermissions S application role) r).2 := by
  refine andThen_preserves (SamePermissions r) _ _ ?_ ?_ r rfl
  · intro r1 h1
    exact (createRole_log S application role r1).2.trans h1
  · intro _ r1 h1
    exact (addRolePermissions_cases S application role r1).1.1.trans h1

theorem groupStep_samePermissions {σ : Type} (S : Store σ) (group : DeclGroup) (r : Run σ) :
    SamePermissions r (andThen (createGroup S group)
      (fun _ => createNestedGroups S group) r).2 := by
  refine andThen_preserves (SamePermissions r) _ _ ?_ ?_ r rfl
  · intro r1 h1
    exact (createGroup_log S group r1).2.trans h1
  · intro _ r1 h1
    exact (createNestedGroups_cases S group r1).1.1.trans h1

theorem rolePass_samePermissions {σ : Type} (S : Store σ) (data : Data) (r : Run σ) :
    SamePermissions r (rolePass S data r).2 := by
  unfold rolePass
  refine mapSeries_preserves (SamePermissions r) _ ?_ _ r rfl
  intro application r1 h1
  refine mapSeries_preserves (SamePermissions r) _ ?_ _ r1 h1
  intro role r2 h2
  exact (roleStep_samePermissions S application role r2).trans h2

theorem groupPass_samePermissions {σ : Type} (S : Store σ) (data : Data) (r : Run σ) :
    SamePermissions r (groupPass S data r).2 := by
  unfold groupPass
  refine mapSeries_preserves (SamePermissions r) _ ?_ _ r rfl
  intro group r1 h1
  exact (groupStep_samePermissions S group r1).trans h1

/-- A fulfilled role pass adds to the permission lists of the log what the
declared roles resolve to in the permission snapshot, in declared order. -/
theorem rolePass_log {σ : Type} (S : Store σ) (data : Data) (r rf : Run σ)
    (v : List (List (JsRet Unit))) (h : rolePass S data r = (.ok v, rf)) :
    rolePermissionLists rf.calls =
      rolePermissionLists r.calls ++ expectedRoleAttaches data rf.existingPermissions := by
  unfold rolePass at h
  unfold expectedRoleAttaches
  refine mapSeries_log SamePermissions (fun _ => rfl)
    (fun a b c hab hbc => Eq.trans hbc hab) rolePermissionLists
    (fun application r1 => (application.roles.map (fun role =>
      expectedRoleAttach application role r1.existingPermissions)).flatten)
    _ ?_ data.applications ?_ r rf v h
  · intro application r1
    refine mapSeries_preserves (SamePermissions r1) _ ?_ _ r1 rfl
    intro role r2 h2
    exact (roleStep_samePermissions S application role r2).trans h2
  · intro application _ r1 v1 r2 h1
    constructor
    · refine mapSeries_log SamePermissions (fun _ => rfl)
        (fun a b c hab hbc => Eq.trans hbc hab) rolePermissionLists
        (fun role r3 => expectedRoleAttach application role r3.existingPermissions)
        _ ?_ application.roles ?_ r1 r2 v1 h1
      · intro role r3
        exact roleStep_samePermissions S application role r3
      · intro role _ r3 v3 r4 h3
        refine ⟨(roleStep_log S application role r3 r4 v3 h3).1, ?_⟩
        intro r5 h5
        simp only
        rw [h5]
    · intro r3 h3
      simp only
      rw [h3]

/-- A fulfilled group pass adds to the nesting requests of the log what the
declared groups resolve to in the final group snapshot, in declared order. -/
theorem groupPass_log {σ : Type} (S : Store σ) (data : Data) (r rf : Run σ)
    (v : List (JsRet Unit)) (h : groupPass S data r = (.ok v, rf)) :
    nestingLists rf.calls = nestingLists r.calls ++ expectedNestings data rf.existingGroups := by
  unfold groupPass at h
  unfold expectedNestings
  refine mapSeries_log Extends extends_refl (fun a b c hab hbc => extends_trans hab hbc) nestingLists
    (fun group r1 => expectedNesting group r1.existingGroups)
    _ ?_ data.groups ?_ r rf v h
  · intro group r1
    exact groupStep_extends S group r1
  · intro group _ r1 v1 r2 h1
    exact groupStep_log S group r1 r2 v1 h1

/-- A fulfilled chain has sent, as role attaches and as nesting requests,
what the model resolves to in the final snapshots. -/
theorem provisionChain_log {σ : Type} (S : Store σ) (data : Data) (r rf : Run σ)
    (v : List (JsRet Unit)) (h : provisionChain S data r = (.ok v, rf)) :
    rolePermissionLists rf.calls =
        rolePermissionLists r.calls ++ expectedRoleAttaches data rf.existingPermissions ∧
      nestingLists rf.calls =
        nestingLists r.calls ++ expectedNestings data rf.existingGroups := by
  unfold provisionChain at h
  obtain ⟨v1, r1, hperm, hrest⟩ := andThen_ok _ _ r rf v h
  obtain ⟨v2, r2, hrole, hgroup⟩ := andThen_ok _ _ r1 rf v hrest
  have hpa := permissionPass_appends S data r
  have hra := rolePass_appends S data r1
  have hga := groupPass_appends S data r2
  have hgp := groupPass_samePermissions S data r2
  rw [hperm] at hpa
  rw [hrole] at hra
  rw [hgroup] at hga hgp
  simp only at hpa hra hga hgp
  constructor
  · rw [rolePermissionLists_of_appends _ r2 rf hga
        (by intro c hc roleId body hcc; subst hcc; simp [Call.isGroupCall] at hc),
      rolePass_log S data r1 r2 v2 hrole,
      rolePermissionLists_of_appends _ r r1 hpa
        (by intro c hc roleId body hcc; subst hcc; simp [Call.isPermissionCall] at hc),
      hgp]
  · rw [groupPass_log S data r2 rf v hgroup,
      nestingLists_of_appends _ r1 r2 hra
        (by intro c hc groupId nestedIds hcc; subst hcc; simp [Call.isRoleCall] at hc),
      nestingLists_of_appends _ r r1 hpa
        (by intro c hc groupId nestedIds hcc; subst hcc; simp [Call.isPermissionCall] at hc)]

/-! ### Running twice: what a fulfilled run leaves in the snapshots -/

theorem permissionReady_mono {σ : Type} (application : Application) (permission : String)
    (r r' : Run σ) (hext : Extends r r') (h : PermissionReady application permission r) :
    PermissionReady application permission r' := by
  obtain ⟨⟨more, hmore⟩, _, _⟩ := hext
  obtain ⟨x, hx⟩ := h
  exact ⟨x, by rw [hmore]; exact find_append_of_some _ _ _ _ hx⟩

theorem roleReady_mono {σ : Type} (application : Application) (role : DeclRole)
    (r r' : Run σ) (hext : Extends r r') (h : RoleReady application role r) :
    RoleReady application role r' := by
  obtain ⟨⟨more, hmore⟩, ⟨morer, hmorer⟩, _⟩ := hext
  obtain ⟨hkey, hres⟩ := h
  refine ⟨by rw [hmorer]; exact List.mem_append_left _ hkey, ?_⟩
  intro names hnames hlen
  obtain ⟨ids, hids⟩ := hres names hnames hlen
  exact ⟨ids, by rw [hmore]; exact resolvePermissionIds_append _ _ _ _ _ hids⟩

theorem groupReady_mono {σ : Type} (group : DeclGroup)
    (r r' : Run σ) (hext : Extends r r') (h : GroupReady group r) :
    GroupReady group r' := by
  obtain ⟨_, _, ⟨more, hmore⟩⟩ := hext
  obtain ⟨⟨x, hx⟩, hres⟩ := h
  refine ⟨⟨x, by rw [hmore]; exact find_append_of_some _ _ _ _ hx⟩, ?_⟩
  intro nested hnested hlen
  obtain ⟨ids, hids⟩ := hres nested hnested hlen
  exact ⟨ids, by rw [hmore]; exact resolveNestedIds_append _ _ _ _ hids⟩

theorem createPermission_ready {σ : Type} (S : Store σ) (hS : Reliable S)
    (application : Application) (permission : String) (r r' : Run σ) (v : JsRet String)
    (h : createPermission S application permission r = (.ok v, r')) :
    PermissionReady application permission r' := by
  unfold createPermission at h
  cases hfind : r.existingPermissions.find? (permissionMatches application.id permission) with
  | some x =>
    simp only [hfind, Prod.mk.injEq] at h
    rw [← h.2]
    exact ⟨x, hfind⟩
  | none =>
    obtain ⟨created, st', hpost, hname, happ, _, _, _⟩ :=
      hS.postPermission (permissionPayload application permission) r.store
    simp only [hfind, hpost, Prod.mk.injEq] at h
    rw [← h.2]
    refine ⟨created, ?_⟩
    simp only [List.find?_append, hfind, Option.none_or]
    have hm : permissionMatches application.id permission created = true := by
      rw [permissionMatches_iff]
      exact ⟨happ, hname⟩
    simp [List.find?, hm]

theorem createRole_ready {σ : Type} (S : Store σ) (hS : Reliable S)
    (application : Application) (role : DeclRole) (r r' : Run σ) (v : JsRet DeclRole)
    (h : createRole S application role r = (.ok v, r')) :
    (some application.id, some role.name) ∈ r'.existingRoles.map roleKey := by
  unfold createRole at h
  cases hfind : r.existingRoles.find? (roleMatches application.id role.name) with
  | some x =>
    simp only [hfind, Prod.mk.injEq] at h
    rw [← h.2]
    exact (find_role_isSome_iff _ _ _).mp ⟨x, hfind⟩
  | none =>
    obtain ⟨created, st', hpost, hname, happ, _, _, _⟩ :=
      hS.postRole (rolePayload application role) r.store
    simp only [hfind, hpost, Prod.mk.injEq] at h
    rw [← h.2]
    simp only [List.map_append, List.map_cons, List.map_nil, List.mem_append,
      List.mem_singleton]
    right
    simp only [roleKey, happ, hname]
    rfl

theorem createGroup_ready {σ : Type} (S : Store σ) (hS : Reliable S)
    (group : DeclGroup) (r r' : Run σ) (v : JsRet DeclGroup)
    (h : createGroup S group r = (.ok v, r')) :
    ∃ x, r'.existingGroups.find? (groupMatches group.name) = some x := by
  unfold createGroup at h
  cases hfind : r.existingGroups.find? (groupMatches group.name) with
  | some x =>
    simp only [hfind, Prod.mk.injEq] at h
    rw [← h.2]
    exact ⟨x, hfind⟩
  | none =>
    obtain ⟨created, st', hpost, hname, _, _, _⟩ := hS.postGroup (groupPayload group) r.store
    simp only [hfind, hpost, Prod.mk.injEq] at h
    rw [← h.2]
    refine ⟨created, ?_⟩
    simp only [List.find?_append, hfind, Option.none_or]
    have hm : groupMatches group.name created = true := by
      rw [groupMatches_iff]
      exact hname
    simp [List.find?, hm]

theorem roleStep_ready {σ : Type} (S : Store σ) (hS : Reliable S)
    (application : Application) (role : DeclRole) (r r' : Run σ) (v : JsRet Unit)
    (h : andThen (createRole S application role)
      (fun _ => addRolePermissions S application role) r = (.ok v, r')) :
    RoleReady application role r' := by
  obtain ⟨v1, r1, hcreate, hadd⟩ := andThen_ok _ _ r r' v h
  have hkey := createRole_ready S hS application role r r1 v1 hcreate
  obtain ⟨⟨hp, _, hk⟩, hcase⟩ := addRolePermissions_cases S application role r1
  rw [hadd] at hp hk hcase
  simp only at hp hk hcase
  refine ⟨by rw [hk]; exact hkey, ?_⟩
  intro names hnames hlen
  rcases hcase with ⟨hnone, _⟩ | ⟨_, _, _, _, herr, _, _⟩ |
    ⟨names2, _, ids, _, _, hnames2, _, _, hres, _, _, _, _⟩
  · rcases hnone with hnone | ⟨names2, hnames2, hlen2⟩
    · rw [hnone] at hnames
      cases hnames
    · rw [hnames2] at hnames
      cases hnames
      exact absurd hlen2 hlen
  · simp at herr
  · rw [hnames2] at hnames
    cases hnames
    exact ⟨ids, by rw [hp]; exact hres⟩

theorem groupStep_ready {σ : Type} (S : Store σ) (hS : Reliable S)
    (group : DeclGroup) (r r' : Run σ) (v : JsRet Unit)
    (h : andThen (createGroup S group) (fun _ => createNestedGroups S group) r = (.ok v, r')) :
    GroupReady group r' := by
  obtain ⟨v1, r1, hcreate, hnest⟩ := andThen_ok _ _ r r' v h
  have hfound := createGroup_ready S hS group r r1 v1 hcreate
  obtain ⟨⟨_, hg, _⟩, hcase⟩ := createNestedGroups_cases S group r1
  rw [hnest] at hg hcase
  simp only at hg hcase
  refine ⟨by rw [hg]; exact hfound, ?_⟩
  intro nested hnested hlen
  rcases hcase with ⟨hnone, _⟩ | ⟨_, _, _, _, herr⟩ |
    ⟨nested2, _, ids, _, _, hnested2, _, _, hres, _, _, _, _⟩
  · rcases hnone with hnone | ⟨nested2, hnested2, hlen2⟩
    · rw [hnone] at hnested
      cases hnested
    · rw [hnested2] at hnested
      cases hnested
      exact absurd hlen2 hlen
  · simp at herr
  · rw [hnested2] at hnested
    cases hnested
    exact ⟨ids, by rw [hg]; exact hres⟩

/-- After a fulfilled chain against a reliable store, everything the model
declares is in the snapshots and every reference resolves there. -/
theorem provisionChain_satisfies {σ : Type} (S : Store σ) (hS : Reliable S) (data : Data)
    (r rf : Run σ) (v : List (JsRet Unit)) (h : provisionChain S data r = (.ok v, rf)) :
    Satisfies data rf := by
  unfold provisionChain at h
  obtain ⟨v1, r1, hperm, hrest⟩ := andThen_ok _ _ r rf v h
  obtain ⟨v2, r2, hrole, hgroup⟩ := andThen_ok _ _ r1 rf v hrest
  have hext1 : Extends r1 r2 := by
    have := rolePass_extends S data r1
    rw [hrole] at this
    exact this
  have hext2 : Extends r2 rf := by
    have := groupPass_extends S data r2
    rw [hgroup] at this
    exact this
  refine ⟨?_, ?_, ?_⟩
  · intro application happ permission hpermission
    unfold permissionPass at hperm
    have hall := mapSeries_establishes Extends extends_refl
      (fun a b c hab hbc => extends_trans hab hbc)
      (fun (application : Application) (r3 : Run σ) =>
        ∀ permission ∈ application.permissions, PermissionReady application permission r3)
      _ (fun x r3 r4 hext hq p hp => permissionReady_mono x p r3 r4 hext (hq p hp))
      (fun x r3 => mapSeries_preserves (Extends r3) _
        (fun p r4 h4 => extends_trans h4 (createPermission_extends S x p r4)) _ r3 (extends_refl r3))
      data.applications
      (fun x _ r3 v3 r4 h3 =>
        mapSeries_establishes Extends extends_refl (fun a b c hab hbc => extends_trans hab hbc)
          (fun (p : String) (r5 : Run σ) => PermissionReady x p r5) _
          (fun p r5 r6 hext hq => permissionReady_mono x p r5 r6 hext hq)
          (fun p r5 => createPermission_extends S x p r5)
          x.permissions
          (fun p _ r5 v5 r6 h5 => createPermission_ready S hS x p r5 r6 v5 h5)
          r3 r4 v3 h3)
      r r1 v1 hperm
    exact permissionReady_mono application permission r1 rf (extends_trans hext1 hext2)
      (hall application happ permission hpermission)
  · intro application happ role hrolemem
    unfold rolePass at hrole
    have hall := mapSeries_establishes Extends extends_refl
      (fun a b c hab hbc => extends_trans hab hbc)
      (fun (application : Application) (r3 : Run σ) =>
        ∀ role ∈ application.roles, RoleReady application role r3)
      _ (fun x r3 r4 hext hq p hp => roleReady_mono x p r3 r4 hext (hq p hp))
      (fun x r3 => mapSeries_preserves (Extends r3) _
        (fun p r4 h4 => extends_trans h4 (roleStep_extends S x p r4)) _ r3 (extends_refl r3))
      data.applications
      (fun x _ r3 v3 r4 h3 =>
        mapSeries_establishes Extends extends_refl (fun a b c hab hbc => extends_trans hab hbc)
          (fun (p : DeclRole) (r5 : Run σ) => RoleReady x p r5) _
          (fun p r5 r6 hext hq => roleReady_mono x p r5 r6 hext hq)
          (fun p r5 => roleStep_extends S x p r5)
          x.roles
          (fun p _ r5 v5 r6 h5 => roleStep_ready S hS x p r5 r6 v5 h5)
          r3 r4 v3 h3)
      r1 r2 v2 hrole
    exact roleReady_mono application role r2 rf hext2 (hall application happ role hrolemem)
  · intro group hgroupmem
    unfold groupPass at hgroup
    exact mapSeries_establishes Extends extends_refl (fun a b c hab hbc => extends_trans hab hbc)
      (fun (g : DeclGroup) (r3 : Run σ) => GroupReady g r3) _
      (fun g r3 r4 hext hq => groupReady_mono g r3 r4 hext hq)
      (fun g r3 => groupStep_extends S g r3)
      data.groups
      (fun g _ r3 v3 r4 h3 => groupStep_ready S hS g r3 r4 v3 h3)
      r2 rf v hgroup group hgroupmem

/-! ### Running twice: the second run -/

theorem satisfies_of_quiet {σ : Type} (data : Data) (target r : Run σ)
    (hq : Quiet target r) (h : Satisfies data target) : Satisfies data r := by
  obtain ⟨hp, hk, hg, _⟩ := hq
  have hext : Extends target r := ⟨⟨[], by simp [hp]⟩, ⟨[], by simp [hk]⟩, ⟨[], by simp [hg]⟩⟩
  exact ⟨fun a ha p hpm => permissionReady_mono a p target r hext (h.1 a ha p hpm),
    fun a ha x hx => roleReady_mono a x target r hext (h.2.1 a ha x hx),
    fun g hgm => groupReady_mono g target r hext (h.2.2 g hgm)⟩

theorem createPermission_quiet {σ : Type} (S : Store σ) (application : Application)
    (permission : String) (r : Run σ) (h : PermissionReady application permission r) :
    createPermission S application permission r = (.ok .jsTrue, r) := by
  obtain ⟨x, hx⟩ := h
  unfold createPermission
  simp only [hx]

theorem createRole_quiet {σ : Type} (S : Store σ) (application : Application)
    (role : DeclRole) (r : Run σ) (h : RoleReady application role r) :
    createRole S application role r = (.ok .jsTrue, r) := by
  obtain ⟨x, hx⟩ := (find_role_isSome_iff _ _ _).mpr h.1
  unfold createRole
  simp only [hx]

theorem createGroup_quiet {σ : Type} (S : Store σ) (group : DeclGroup) (r : Run σ)
    (h : GroupReady group r) : createGroup S group r = (.ok .jsTrue, r) := by
  obtain ⟨x, hx⟩ := h.1
  unfold createGroup
  simp only [hx]

theorem quiet_concat {σ : Type} (target r r' : Run σ) (c : Call) (hq : Quiet target r)
    (hp : r'.existingPermissions = r.existingPermissions)
    (hk : r'.existingRoles.map roleKey = r.existingRoles.map roleKey)
    (hg : r'.existingGroups = r.existingGroups)
    (hcalls : r'.calls = r.calls ++ [c]) (hc : c.isCreate = false) : Quiet target r' := by
  refine ⟨hp.trans hq.1, hk.trans hq.2.1, hg.trans hq.2.2.1, ?_⟩
  intro d hd
  rw [hcalls] at hd
  rcases List.mem_append.mp hd with hd | hd
  · exact hq.2.2.2 d hd
  · have hdc : d = c := by simpa using hd
    rw [hdc]
    exact hc

theorem addRolePermissions_quiet {σ : Type} (S : Store σ) (hS : Reliable S)
    (application : Application) (role : DeclRole) (target r : Run σ)
    (hready : RoleReady application role r) (hq : Quiet target r) :
    (∃ v, (addRolePermissions S application role r).1 = .ok v) ∧
      Quiet target (addRolePermissions S application role r).2 := by
  obtain ⟨⟨hp, hg, hk⟩, hcase⟩ := addRolePermissions_cases S application role r
  rcases hcase with ⟨_, hout⟩ | ⟨names, hnames, hlen, hmiss, _, _, _⟩ |
    ⟨names, existingRole, ids, res, st, _, _, _, _, hput, hres, hcalls, _⟩
  · rw [hout]
    exact ⟨⟨_, rfl⟩, hq⟩
  · exfalso
    rcases hmiss with hnone | hnone
    · obtain ⟨x, hx⟩ := (find_role_isSome_iff _ _ _).mpr hready.1
      rw [hx] at hnone
      cases hnone
    · obtain ⟨ids, hids⟩ := hready.2 names hnames hlen
      rw [hids] at hnone
      cases hnone
  · obtain ⟨st', hput', _, _, _⟩ := hS.putRole existingRole._id
      { existingRole with _id := none, permissions := some ids } r.store
    rw [hput] at hput'
    have hok : res = .ok () := (Prod.mk.inj hput').1
    subst hok
    exact ⟨⟨_, hres⟩, quiet_concat target r _ _ hq hp hk hg hcalls rfl⟩

theorem createNestedGroups_quiet {σ : Type} (S : Store σ) (hS : Reliable S)
    (group : DeclGroup) (target r : Run σ)
    (hready : GroupReady group r) (hq : Quiet target r) :
    (∃ v, (createNestedGroups S group r).1 = .ok v) ∧
      Quiet target (createNestedGroups S group r).2 := by
  obtain ⟨⟨hp, hg, hr⟩, hcase⟩ := createNestedGroups_cases S group r
  rcases hcase with ⟨_, hout⟩ | ⟨nested, hnested, hlen, hmiss, _⟩ |
    ⟨nested, owner, ids, res, st, _, _, _, _, hpatch, hres, hcalls, _⟩
  · rw [hout]
    exact ⟨⟨_, rfl⟩, hq⟩
  · exfalso
    rcases hmiss with hnone | hnone
    · obtain ⟨ids, hids⟩ := hready.2 nested hnested hlen
      rw [hids] at hnone
      cases hnone
    · obtain ⟨x, hx⟩ := hready.1
      rw [hx] at hnone
      cases hnone
  · obtain ⟨st', hpatch', _, _, _⟩ := hS.patchNested owner._id ids r.store
    rw [hpatch] at hpatch'
    have hok : res = .ok () := (Prod.mk.inj hpatch').1
    subst hok
    exact ⟨⟨_, hres⟩,
      quiet_concat target r _ _ hq hp (by rw [hr]) hg hcalls rfl⟩

/-- From a run that already has the snapshots of a target satisfying the
model, the chain against a reliable store fulfils, creates nothing and keeps
those snapshots. -/
theorem provisionChain_quiet {σ : Type} (S : Store σ) (hS : Reliable S) (data : Data)
    (target r : Run σ) (hsat : Satisfies data target) (hq : Quiet target r) :
    (∃ v, (provisionChain S data r).1 = .ok v) ∧ Quiet target (provisionChain S data r).2 := by
  unfold provisionChain permissionPass rolePass groupPass
  refine andThen_fulfils (Quiet target) _ _ ?_ ?_ r hq
  · intro r1 h1
    refine mapSeries_fulfils (Quiet target) _ _ ?_ r1 h1
    intro application happ r2 h2
    refine mapSeries_fulfils (Quiet target) _ _ ?_ r2 h2
    intro permission hpm r3 h3
    rw [createPermission_quiet S application permission r3
      ((satisfies_of_quiet data target r3 h3 hsat).1 application happ permission hpm)]
    exact ⟨⟨_, rfl⟩, h3⟩
  · intro _ r1 h1
    refine andThen_fulfils (Quiet target) _ _ ?_ ?_ r1 h1
    · intro r2 h2
      refine mapSeries_fulfils (Quiet target) _ _ ?_ r2 h2
      intro application happ r3 h3
      refine mapSeries_fulfils (Quiet target) _ _ ?_ r3 h3
      intro role hrm r4 h4
      refine andThen_fulfils (Quiet target) _ _ ?_ ?_ r4 h4
      · intro r5 h5
        have hready5 :=
          (satisfies_of_quiet data target r5 h5 hsat).2.1 application happ role hrm
        rw [createRole_quiet S application role r5 hready5]
        exact ⟨⟨_, rfl⟩, h5⟩
      · intro _ r5 h5
        exact addRolePermissions_quiet S hS application role target r5
          ((satisfies_of_quiet data target r5 h5 hsat).2.1 application happ role hrm) h5
    · intro _ r2 h2
      refine mapSeries_fulfils (Quiet target) _ _ ?_ r2 h2
      intro group hgm r3 h3
      refine andThen_fulfils (Quiet target) _ _ ?_ ?_ r3 h3
      · intro r4 h4
        rw [createGroup_quiet S group r4
          ((satisfies_of_quiet data target r4 h4 hsat).2.2 group hgm)]
        exact ⟨⟨_, rfl⟩, h4⟩
      · intro _ r4 h4
        exact createNestedGroups_quiet S hS group target r4
          ((satisfies_of_quiet data target r4 h4 hsat).2.2 group hgm) h4

/-! ### Running twice: idempotence -/

/-- Against a store whose reads succeed, `provision` is its chain started
from the initial run. -/
theorem provision_of_lists {σ : Type} (S : Store σ) (hS : Reliable S) (data : Data) (st : σ) :
    (provision S data st).chain =
        some ((provisionChain S data (initialRun S st)).1.map (fun _ => ())) ∧
      (provision S data st).store = (provisionChain S data (initialRun S st)).2.store ∧
      (provision S data st).calls = (provisionChain S data (initialRun S st)).2.calls := by
  obtain ⟨hp, hr, hg⟩ := hS.lists st
  unfold provision
  rw [hp, hr, hg]
  exact ⟨rfl, rfl, rfl⟩

theorem memStore_reliable : Reliable memStore where
  lists := fun _ => ⟨rfl, rfl, rfl⟩
  postPermission := fun _ _ => ⟨_, _, rfl, rfl, rfl, rfl, rfl, rfl⟩
  postRole := fun _ _ => ⟨_, _, rfl, rfl, rfl, rfl, by simp [rolesOf, memStore], rfl⟩
  putRole := fun roleId body st => by
    refine ⟨_, rfl, rfl, ?_, rfl⟩
    simp only [rolesOf, memStore, List.map_map]
    apply List.map_congr_left
    intro e _
    simp only [Function.comp]
    split <;> rfl
  postGroup := fun _ _ => ⟨_, _, rfl, rfl, rfl, rfl, rfl⟩
  patchNested := fun _ _ _ => ⟨_, rfl, rfl, rfl, rfl⟩

/-- C6: against a store whose reads succeed, whose create calls answer with
the identity of the payload and list the created entity after everything
listed before, and whose attach calls are accepted, when the chain of a
first `provision` has fulfilled, a second `provision` of the same model on
the store the first one left fulfils as well, sends no creation request, and
its role `PUT`s carry the same permission lists and its nesting requests the
same owner and identifier lists as those of the first run, in the same
order. -/
theorem provision_idempotent {σ : Type} (S : Store σ) (hS : Reliable S) (data : Data) (st : σ)
    (hfirst : (provision S data st).chain = some (.ok ())) :
    (provision S data (provision S data st).store).chain = some (.ok ()) ∧
    (∀ c ∈ (provision S data (provision S data st).store).calls, c.isCreate = false) ∧
    rolePermissionLists (provision S data (provision S data st).store).calls =
      rolePermissionLists (provision S data st).calls ∧
    nestingLists (provision S data (provision S data st).store).calls =
      nestingLists (provision S data st).calls := by
  obtain ⟨hchain1, hstore1, hcalls1⟩ := provision_of_lists S hS data st
  rw [hchain1] at hfirst
  rw [hstore1, hcalls1]
  obtain ⟨hchain2, _, hcalls2⟩ :=
    provision_of_lists S hS data (provisionChain S data (initialRun S st)).2.store
  rw [hchain2, hcalls2]
  have hsync := provisionChain_sync S hS data (initialRun S st) ⟨rfl, rfl, rfl⟩
  rcases h1 : provisionChain S data (initialRun S st) with ⟨res1, rf1⟩
  rw [h1] at hfirst hsync
  simp only at hfirst hsync ⊢
  cases res1 with
  | error e => simp [Except.map] at hfirst
  | ok v1 =>
    have hsat := provisionChain_satisfies S hS data (initialRun S st) rf1 v1 h1
    have hquiet0 : Quiet rf1 (initialRun S rf1.store) :=
      ⟨hsync.1.symm, hsync.2.1.symm, hsync.2.2.symm, by simp [initialRun]⟩
    obtain ⟨⟨v2, hv2⟩, hquiet⟩ :=
      provisionChain_quiet S hS data rf1 (initialRun S rf1.store) hsat hquiet0
    rcases h2 : provisionChain S data (initialRun S rf1.store) with ⟨res2, rf2⟩
    rw [h2] at hv2 hquiet
    simp only at hv2 hquiet ⊢
    subst hv2
    obtain ⟨hroles1, hnest1⟩ := provisionChain_log S data (initialRun S st) rf1 v1 h1
    obtain ⟨hroles2, hnest2⟩ := provisionChain_log S data (initialRun S rf1.store) rf2 v2 h2
    refine ⟨rfl, hquiet.2.2.2, ?_, ?_⟩
    · rw [hroles2, hroles1, hquiet.1]
      rfl
    · rw [hnest2, hnest1, hquiet.2.2.1]
      rfl

/-- On the empty in-memory store the first run of the scenario model
fulfils; the second run creates nothing and puts the same permission list
on `admin`. -/
theorem provision_idempotent_witness :
    (provision memStore scenario emptyMem).chain = some (.ok ()) ∧
    (∀ c ∈ (provision memStore scenario (provision memStore scenario emptyMem).store).calls,
      c.isCreate = false) ∧
    rolePermissionLists
        (provision memStore scenario (provision memStore scenario emptyMem).store).calls =
      rolePermissionLists (provision memStore scenario emptyMem).calls :=
  ⟨rfl, (provision_idempotent memStore memStore_reliable scenario emptyMem rfl).2.1,
    (provision_idempotent memStore memStore_reliable scenario emptyMem rfl).2.2.1⟩

/-! ### A single attach -/

theorem resolvePermissionIds_of_forall₂ (ps : List Permission) (a : String)
    (names : List String) (ids : List (Option String))
    (h : List.Forall₂ (fun n i => ∃ p,
      IsFirst (fun x => x.applicationId = some a ∧ x.name = some n) ps p ∧ p._id = i)
      names ids) :
    resolvePermissionIds ps a names = some ids := by
  induction h with
  | nil => rfl
  | cons hhead _ ih =>
    obtain ⟨p, hfirst, hid⟩ := hhead
    unfold resolvePermissionIds
    rw [find_eq_of_isFirst _ _ (permissionMatches_iff a _) ps p hfirst]
    simp [ih, hid]

/-- The attach of a role whose snapshot entry still has its `_id`: when the
role found is the first of the snapshot with the declared identity and every
declared permission name has a first snapshot permission of that name under
the application, `addRolePermissions` sends one `PUT` on the `_id` of that
role; its body is the role without `_id` and with the resolved identifiers,
in declared order, as its permission list. -/
theorem addRolePermissions_attaches {σ : Type} (S : Store σ) (r : Run σ)
    (application : Application) (role : DeclRole) (names : List String)
    (existingRole : Role) (ids : List (Option String))
    (hnames : role.permissions = some names) (hne : names ≠ [])
    (hrole : IsFirst (fun e => e.applicationId = some application.id ∧
      e.name = some role.name) r.existingRoles existingRole)
    (hres : List.Forall₂ (fun n i => ∃ p,
      IsFirst (fun x => x.applicationId = some application.id ∧ x.name = some n)
        r.existingPermissions p ∧ p._id = i) names ids) :
    (addRolePermissions S application role r).2.calls =
      r.calls ++ [Call.putRole existingRole._id
        { existingRole with _id := none, permissions := some ids }] := by
  have hfind := find_eq_of_isFirst _ _ (roleMatches_iff application.id role.name) _ _ hrole
  have hids := resolvePermissionIds_of_forall₂ _ _ _ _ hres
  obtain ⟨_, hcase⟩ := addRolePermissions_cases S application role r
  rcases hcase with ⟨hnone, _⟩ | ⟨names2, hnames2, _, hmiss, _, _, _⟩ |
    ⟨names2, existingRole2, ids2, _, _, hnames2, _, hfind2, hres2, _, _, hcalls, _⟩
  · exfalso
    rcases hnone with hnone | ⟨names2, hnames2, hlen2⟩
    · rw [hnone] at hnames
      cases hnames
    · rw [hnames2] at hnames
      cases hnames
      exact hne (List.length_eq_zero.mp hlen2)
  · exfalso
    rw [hnames2] at hnames
    cases hnames
    rcases hmiss with hm | hm
    · rw [hfind] at hm
      cases hm
    · rw [hids] at hm
      cases hm
  · rw [hnames2] at hnames
    cases hnames
    rw [hfind] at hfind2
    cases hfind2
    rw [hids] at hres2
    cases hres2
    exact hcalls

end Authz
